import Mathlib

/-!
Verification of the `ls` directory-listing utility against its specification.

The repository contains two variants of the lister:
  * `src/ls.go` (Go package `ls`), modelled in namespace `ls` below;
  * `src/unnamed/part_000` (Go package `command`), modelled in namespace `command`.
Shared data (flags, file metadata, the filesystem tree) is modelled at top level.

Modelling conventions:
  * Go strings are Lean `String`s; all string manipulation is done on `List Char`
    so that every definition reduces in the kernel.  Go string comparison is
    byte-lexicographic; for the ASCII names exercised here the `Char`-wise
    lexicographic order used below coincides with it.
  * Go `int64` values are Lean `Int`s; theorems that depend on the 64-bit range
    carry explicit range hypotheses.
  * The filesystem is an immutable tree (`FSNode`).  `os.Stat` at top level is an
    oracle `String → Option FSNode`; `DirEntry.Info()` failure is a per-entry
    Boolean (`infoOk`).  Directory reads are assumed to succeed (no claim
    exercises `os.ReadDir` failure).
  * Cancellation (`yup.CheckContextCancellation`, an external framework
    collaborator described in spec §5) is a monotone signal: a context is
    modelled as `Option Nat`, the number of successful checks remaining before
    cancellation is observed; `none` never cancels.  Once observed it stays
    observed, as for a real `context.Context`.
  * `sort.Slice` is an unstable comparison sort; it is modelled by
    `List.insertionSort` with the source's comparator.  Where the source's
    comparator dereferences nil metadata (ls.go with a failed `Info()`),
    the listing is modelled as panicking (see `ls.sortCrash`).
  * Functions that recurse through the tree take a fuel argument so that they
    are structurally recursive and kernel-computable; public wrappers supply a
    fuel bound (`nodeSize` of the tree) that is proved sufficient.
-/

/-- Character-list lexicographic strict order; model of Go `<` on strings. -/
def charListLt : List Char → List Char → Bool
  | [], [] => false
  | [], _ :: _ => true
  | _ :: _, [] => false
  | a :: as, b :: bs => if a < b then true else if b < a then false else charListLt as bs

/-- Model of Go string comparison `s < t` (byte-lexicographic; here Char-wise). -/
def strLtB (s t : String) : Bool := charListLt s.toList t.toList

/-- Model of `strings.HasPrefix(name, ".")`. -/
def hiddenName (s : String) : Bool :=
  match s.toList with
  | '.' :: _ => true
  | _ => false

/-- Model of `filepath.Join(p, n)` for the clean inputs arising here:
`Join("", n) = Join(".", n) = n`, otherwise `p ++ "/" ++ n`. -/
def pathJoin (p n : String) : String :=
  if p = "" || p = "." then n else p ++ "/" ++ n

/-- Split a character list at every `/`. -/
def splitSlash : List Char → List (List Char)
  | [] => [[]]
  | c :: cs =>
    match splitSlash cs with
    | [] => [[]]
    | p :: ps => if c = '/' then [] :: p :: ps else (c :: p) :: ps

/-- Model of `filepath.Base` for the slash-separated paths arising here:
the last `/`-separated component. -/
def pathBase (s : String) : String :=
  if s = "" then "."
  else String.mk ((splitSlash s.toList).getLastD [])

/-- Right-align a string in a field of width `w` (model of `%8s` / `%10s`). -/
def padLeft (w : Nat) (s : String) : String :=
  String.mk (List.replicate (w - s.length) ' ') ++ s

/-- Abstract rendering of a modification timestamp.  The sources format with
`time.Stamp` / `time.DateTime`; timestamps are abstract integers here and the
rendering is opaque — no claim inspects the time text. -/
def fmtTime (t : Int) : String := toString t

/-- Sort keys; `localopt.SortBy` in ls.go, the string-valued `SortBy` in
part_000 restricted to its three recognized values. -/
inductive SortKey where
  | name
  | time
  | size
deriving DecidableEq, Repr

/-- The recognized option set (`flags` in part_001 / `localopt.Flags` in ls.go). -/
structure Flags where
  longFormat : Bool
  allFiles : Bool
  humanReadable : Bool
  recursive : Bool
  reverse : Bool
  sortBy : SortKey
deriving DecidableEq, Repr

/-- Metadata of one filesystem object (the parts of `os.FileInfo` the sources
read): byte size, modification timestamp, and the mode/permission string. -/
structure FileMeta where
  size : Int
  modTime : Int
  mode : String
deriving DecidableEq, Repr

/-- The filesystem tree.  A directory's children are `(name, infoOk, node)`
triples; `infoOk = false` models `DirEntry.Info()` returning an error for that
child. -/
inductive FSNode where
  | file (meta : FileMeta) : FSNode
  | dir (meta : FileMeta) (children : List (String × Bool × FSNode)) : FSNode

/-- One directory entry: base name, whether `Info()` succeeds, subtree. -/
abbrev FSEntry := String × Bool × FSNode

def entryName (e : FSEntry) : String := e.1

def entryInfoOk (e : FSEntry) : Bool := e.2.1

def entryNode (e : FSEntry) : FSNode := e.2.2

/-- The `os.FileInfo` metadata of a node. -/
def nodeMeta : FSNode → FileMeta
  | .file m => m
  | .dir m _ => m

def entryMeta (e : FSEntry) : FileMeta := nodeMeta (entryNode e)

/-- Model of `FileInfo.IsDir()`. -/
def isDirN : FSNode → Bool
  | .file _ => false
  | .dir _ _ => true

mutual

/-- Size of a filesystem tree; used as the fuel bound of the tree-recursive
runners below. -/
def nodeSize : FSNode → Nat
  | .file _ => 1
  | .dir _ cs => 1 + entsSize cs

/-- Total size of a list of directory entries. -/
def entsSize : List FSEntry → Nat
  | [] => 0
  | (_, _, n) :: rest => 1 + nodeSize n + entsSize rest

end

/-- A cancellation context: `some k` observes cancellation at the `(k+1)`-st
check (after `k` successful checks); `none` never cancels. -/
abbrev Ctx := Option Nat

/-- One call of `yup.CheckContextCancellation`: returns whether cancellation is
observed, and the context afterwards.  Once observed, it stays observed. -/
def ctxCheck : Ctx → Bool × Ctx
  | none => (false, none)
  | some 0 => (true, some 0)
  | some (k + 1) => (false, some k)

/-- Outcome of a (sub)operation: normal return, an error return
(cancellation or a stat failure), or a Go panic. -/
inductive LRes where
  | ok
  | canceled
  | statFail
  | patternFail
  | panicked
deriving DecidableEq, Repr

/-- The message `%v` prints for the modelled errors. -/
def errMsg : LRes → String
  | .canceled => "context canceled"
  | .statFail => "no such file or directory"
  | _ => ""

/-- Result of an invocation: stdout lines, stderr lines, context after the run,
and the outcome. -/
structure RunOut where
  out : List String
  err : List String
  ctx : Ctx
  res : LRes
deriving DecidableEq, Repr

/-- The diagnostic-line message for a failed `DirEntry.Info()`. -/
def infoErrMsg : String := "permission denied"

/-- The scaling loop shared by both human-readable size formatters
(`for n := size / unit; n >= unit; n /= unit { div *= unit; exp++ }`).
Structured with fuel so that it is kernel-computable; 64 units of fuel exceed
the iteration count for any `int64`-representable size (the Go domain), and
the theorems below carry explicit 64-bit range hypotheses. -/
def hrLoop : Nat → Int → Int → Nat → Int × Nat
  | 0, _, div, exp => (div, exp)
  | fuel + 1, n, div, exp =>
    if 1024 ≤ n then hrLoop fuel (n / 1024) (div * 1024) (exp + 1) else (div, exp)

/-- Rational model of `fmt.Sprintf("%.1f", float64(size)/float64(div))`:
the quotient rounded to one fractional digit, ties to even (the rounding the
Go pipeline performs on the values exercised here, where the `float64`
intermediates are exact). -/
def fmtF1Q (size div : Int) : Int :=
  let t := 10 * size
  let q0 := t / div
  let r := t % div
  if div < 2 * r then q0 + 1
  else if 2 * r < div then q0
  else if q0 % 2 = 0 then q0 else q0 + 1

def fmtF1 (size div : Int) : String :=
  toString (fmtF1Q size div / 10) ++ "." ++ toString (fmtF1Q size div % 10)

/-- ls.go `command.humanReadableSize`.  Its units slice is `{"K","M","G","T"}`;
`none` models the index-out-of-range panic when `exp` exceeds the slice. -/
def ls.humanReadableSize (size : Int) : Option String :=
  if size < 1024 then some (toString size ++ "B")
  else
    let p := hrLoop 64 (size / 1024) 1024 0
    match ["K", "M", "G", "T"][p.2]? with
    | some u => some (fmtF1 size p.1 ++ u)
    | none => none

/-- ls.go `command.printFile`/`printLongFormat`: the single line emitted for
one entry; `none` models a panic inside `humanReadableSize`. -/
def ls.fmtEntry (f : Flags) (path : String) (m : FileMeta) : Option String :=
  if f.longFormat then
    let sizeStr? := if f.humanReadable then ls.humanReadableSize m.size else some (toString m.size)
    match sizeStr? with
    | none => none
    | some s => some (m.mode ++ " " ++ padLeft 8 s ++ " " ++ fmtTime m.modTime ++ " " ++ pathBase path)
  else some (pathBase path)

/-- The comparator of ls.go `command.sortEntries` (the `less` closure).
`none` models the nil-pointer panic: for the `time` and `size` keys the source
discards the `Info()` error (`info1, _ := entries[i].Info()`) and calls
`ModTime()`/`Size()` on the nil metadata when retrieval failed. -/
def ls.sortLess (f : Flags) (a b : FSEntry) : Option Bool :=
  let base? : Option Bool :=
    match f.sortBy with
    | .time =>
      if entryInfoOk a && entryInfoOk b then
        some (decide ((entryMeta a).modTime < (entryMeta b).modTime))
      else none
    | .size =>
      if entryInfoOk a && entryInfoOk b then
        some (decide ((entryMeta a).size < (entryMeta b).size))
      else none
    | .name => some (strLtB (entryName a) (entryName b))
  match base? with
  | none => none
  | some less => some (if f.reverse then !less else less)

/-- Whether sorting `l` with ls.go's comparator would dereference nil metadata
and panic: a metadata-sorted list of at least two entries, one of which has a
failed `Info()` (every element of a two-or-more element slice takes part in at
least one comparison). -/
def ls.sortCrash (f : Flags) (l : List FSEntry) : Bool :=
  (f.sortBy != .name) && 2 ≤ l.length && l.any (fun e => !entryInfoOk e)

/-- The sorted order produced by `sort.Slice` with ls.go's comparator, on lists
where the comparator does not panic (`ls.sortCrash` is checked by the caller;
the `getD` default is never consulted there). -/
def ls.sortEntries (f : Flags) (l : List FSEntry) : List FSEntry :=
  List.insertionSort (fun a b => (ls.sortLess f a b).getD false = true) l

/-- The filtering loop of ls.go `listPath` (lines 92–106): drops hidden names
unless `AllFiles`, polling cancellation every 1000 entries; `none` models the
early `return err` on cancellation. -/
def ls.filterLoop (f : Flags) : List FSEntry → Nat → Ctx → Ctx × Option (List FSEntry)
  | [], _, ctx => (ctx, some [])
  | e :: rest, i, ctx =>
    let step := fun (ctx' : Ctx) =>
      match ls.filterLoop f rest (i + 1) ctx' with
      | (ctx'', none) => (ctx'', none)
      | (ctx'', some l) =>
        if !f.allFiles && hiddenName (entryName e) then (ctx'', some l)
        else (ctx'', some (e :: l))
    if i % 1000 == 0 then
      match ctxCheck ctx with
      | (true, ctx') => (ctx', none)
      | (false, ctx') => step ctx'
    else step ctx

/-- The two recursion sites of ls.go `listPath`: listing one path, and the
printing loop (lines 117–140) over the sorted entries with its running index. -/
inductive ls.Call where
  | path (p : String) (node : Option FSNode)
  | loop (p : String) (entries : List FSEntry) (i : Nat)

/-- Fuel bound for `ls.runF`: strictly decreases along every recursion step. -/
def ls.callB : ls.Call → Nat
  | .path _ none => 1
  | .path _ (some n) => nodeSize n + 1
  | .loop _ l _ => entsSize l + 1

/-- ls.go `command.listPath`, fuelled.  Mirrors the source's control flow:
cancellation checks before starting, after reading the directory, before and
after sorting, and every 100 entries of the print loop; per-entry `Info()`
failures become diagnostic lines and skip the entry; with `Recursive` set a
directory child is followed by a blank line, a `<path>:` header and the
recursive listing whose error — but not a panic — is discarded (line 138). -/
def ls.runF (f : Flags) : Nat → ls.Call → Ctx → RunOut
  | 0, _, ctx => ⟨[], [], ctx, .panicked⟩
  | fuel + 1, .path p node?, ctx =>
    match ctxCheck ctx with
    | (true, ctx') => ⟨[], [], ctx', .canceled⟩
    | (false, ctx') =>
      match node? with
      | none => ⟨[], [], ctx', .statFail⟩
      | some (.file m) =>
        match ls.fmtEntry f p m with
        | none => ⟨[], [], ctx', .panicked⟩
        | some line => ⟨[line], [], ctx', .ok⟩
      | some (.dir _ cs) =>
        match ctxCheck ctx' with
        | (true, ctx2) => ⟨[], [], ctx2, .canceled⟩
        | (false, ctx2) =>
          match ls.filterLoop f cs 0 ctx2 with
          | (ctx3, none) => ⟨[], [], ctx3, .canceled⟩
          | (ctx3, some items) =>
            match ctxCheck ctx3 with
            | (true, ctx4) =>
              match ctxCheck ctx4 with
              | (true, ctx5) => ⟨[], [], ctx5, .canceled⟩
              | (false, ctx5) => ls.runF f fuel (.loop p items 0) ctx5
            | (false, ctx4) =>
              if ls.sortCrash f items then ⟨[], [], ctx4, .panicked⟩
              else
                match ctxCheck ctx4 with
                | (true, ctx5) => ⟨[], [], ctx5, .canceled⟩
                | (false, ctx5) => ls.runF f fuel (.loop p (ls.sortEntries f items) 0) ctx5
  | _ + 1, .loop _ [] _, ctx => ⟨[], [], ctx, .ok⟩
  | fuel + 1, .loop p (e :: rest) i, ctx =>
    let cont := fun (ctx' : Ctx) =>
      let ep := pathJoin p (entryName e)
      if !entryInfoOk e then
        let r := ls.runF f fuel (.loop p rest (i + 1)) ctx'
        ⟨r.out, ("ls: " ++ ep ++ ": " ++ infoErrMsg) :: r.err, r.ctx, r.res⟩
      else
        match ls.fmtEntry f ep (entryMeta e) with
        | none => ⟨[], [], ctx', .panicked⟩
        | some line =>
          if f.recursive && isDirN (entryNode e) then
            let child := ls.runF f fuel (.path ep (some (entryNode e))) ctx'
            match child.res with
            | .panicked => ⟨line :: "" :: (ep ++ ":") :: child.out, child.err, child.ctx, .panicked⟩
            | _ =>
              let r := ls.runF f fuel (.loop p rest (i + 1)) child.ctx
              ⟨line :: "" :: (ep ++ ":") :: (child.out ++ r.out), child.err ++ r.err, r.ctx, r.res⟩
          else
            let r := ls.runF f fuel (.loop p rest (i + 1)) ctx'
            ⟨line :: r.out, r.err, r.ctx, r.res⟩
    if i % 100 == 0 then
      match ctxCheck ctx with
      | (true, ctx') => ⟨[], [], ctx', .canceled⟩
      | (false, ctx') => cont ctx'
    else cont ctx

/-- ls.go `command.listPath` on one path: the fuelled runner at its proved-
sufficient fuel bound. -/
def ls.listPath (f : Flags) (p : String) (node? : Option FSNode) (ctx : Ctx) : RunOut :=
  ls.runF f (ls.callB (.path p node?)) (.path p node?) ctx

/-- The per-path loop of ls.go `command.Execute` (lines 41–58): a cancellation
check before each path, blank line and `<path>:` header when more than one path
was given, and every `listPath` error — cancellation included — reported as an
`ls: <path>: <error>` diagnostic line. -/
def ls.execLoop (f : Flags) (resolve : String → Option FSNode) (multi : Bool) :
    List String → Nat → Ctx → RunOut
  | [], _, ctx => ⟨[], [], ctx, .ok⟩
  | p :: rest, i, ctx =>
    match ctxCheck ctx with
    | (true, ctx') => ⟨[], [], ctx', .canceled⟩
    | (false, ctx') =>
      let headers := (if multi && decide (0 < i) then [""] else []) ++ (if multi then [p ++ ":"] else [])
      let r := ls.listPath f p (resolve p) ctx'
      match r.res with
      | .panicked => ⟨headers ++ r.out, r.err, r.ctx, .panicked⟩
      | .ok =>
        let k := ls.execLoop f resolve multi rest (i + 1) r.ctx
        ⟨headers ++ r.out ++ k.out, r.err ++ k.err, k.ctx, k.res⟩
      | e =>
        let k := ls.execLoop f resolve multi rest (i + 1) r.ctx
        ⟨headers ++ r.out ++ k.out, r.err ++ (("ls: " ++ p ++ ": " ++ errMsg e) :: k.err), k.ctx, k.res⟩

/-- ls.go `command.Execute`: initial cancellation check, defaulting of an empty
positional list to `["."]`, then the per-path loop.  Per-path errors never make
the invocation fail (it returns nil); only its own cancellation checks do. -/
def ls.execute (f : Flags) (resolve : String → Option FSNode) (paths : List String) (ctx : Ctx) :
    RunOut :=
  match ctxCheck ctx with
  | (true, ctx') => ⟨[], [], ctx', .canceled⟩
  | (false, ctx') =>
    let paths' := if paths.isEmpty then ["."] else paths
    ls.execLoop f resolve (decide (1 < paths'.length)) paths' 0 ctx'

/-- Find the offset of the `}` matching the `{` heading this suffix
(the depth-counting scan of part_000 `expandBraces`, lines 103–115). -/
def braceClose : List Char → Nat → Nat → Option Nat
  | [], _, _ => none
  | c :: rest, depth, idx =>
    if c = '{' then braceClose rest (depth + 1) (idx + 1)
    else if c = '}' then
      if depth = 1 then some idx else braceClose rest (depth - 1) (idx + 1)
    else braceClose rest depth (idx + 1)

/-- Model of `strings.Split(s, "..")` on character lists (leftmost,
non-overlapping). -/
def splitDD : List Char → List (List Char)
  | [] => [[]]
  | '.' :: '.' :: rest => [] :: splitDD rest
  | c :: rest =>
    match splitDD rest with
    | [] => [[c]]
    | h :: t => (c :: h) :: t

/-- Model of `strings.Split(s, ",")` on character lists. -/
def splitComma : List Char → List (List Char)
  | [] => [[]]
  | c :: rest =>
    if c = ',' then [] :: splitComma rest
    else
      match splitComma rest with
      | [] => [[c]]
      | h :: t => (c :: h) :: t

/-- Model of `strings.TrimSpace` on character lists. -/
def trimC (l : List Char) : List Char :=
  ((l.dropWhile Char.isWhitespace).reverse.dropWhile Char.isWhitespace).reverse

/-- Decimal value of the leading digit run (helper for the `%d` scan). -/
def digitsVal : List Char → Nat → Nat
  | [], acc => acc
  | c :: rest, acc => if c.isDigit then digitsVal rest (acc * 10 + (c.toNat - 48)) else acc

/-- Model of `fmt.Sscanf(s, "%d", &v)` on an already-trimmed string: an
optional sign followed by at least one digit; input after the digit run is
ignored (Sscanf does not require consuming the whole input). -/
def parseIntSscanf : List Char → Option Int
  | [] => none
  | '-' :: rest =>
    match rest with
    | c :: _ => if c.isDigit then some (-(digitsVal rest 0 : Int)) else none
    | [] => none
  | '+' :: rest =>
    match rest with
    | c :: _ => if c.isDigit then some ((digitsVal rest 0 : Int)) else none
    | [] => none
  | l@(c :: _) => if c.isDigit then some ((digitsVal l 0 : Int)) else none

/-- part_000 `expandRange`: a numeric range when both endpoints scan as `%d`
(ascending or descending, inclusive); otherwise a single-byte character range
(Go tests `len(start) == 1` on bytes, so only ASCII endpoints qualify);
otherwise the two originals. -/
def command.expandRange (s e : List Char) : List (List Char) :=
  match parseIntSscanf s, parseIntSscanf e with
  | some a, some b =>
    if a ≤ b then
      (List.range ((b - a).toNat + 1)).map (fun i => (toString (a + (i : Int))).toList)
    else
      (List.range ((a - b).toNat + 1)).map (fun i => (toString (a - (i : Int))).toList)
  | _, _ =>
    match s, e with
    | [c], [d] =>
      if c.toNat ≤ 127 && d.toNat ≤ 127 then
        if c.toNat ≤ d.toNat then
          (List.range (d.toNat - c.toNat + 1)).map (fun i => [Char.ofNat (c.toNat + i)])
        else
          (List.range (c.toNat - d.toNat + 1)).map (fun i => [Char.ofNat (c.toNat - i)])
      else [s, e]
    | _, _ => [s, e]

/-- part_000 `expandBraces` on character lists, fuelled: locate the first `{`,
its matching `}` by depth count, expand the content as a range (when it splits
on `..` into exactly two parts and the range expander yields anything) or else
as a comma list, then recursively expand prefix+item+suffix.  Each recursive
call carries strictly fewer `{` characters, so fuel `count '{' + 1` suffices
(supplied by the wrapper below). -/
def command.expandBracesL : Nat → List Char → List (List Char)
  | 0, p => [p]
  | fuel + 1, p =>
    match p.findIdx? (· == '{') with
    | none => [p]
    | some start =>
      match braceClose (p.drop start) 0 0 with
      | none => [p]
      | some off =>
        let pre := p.take start
        let content := (p.drop (start + 1)).take (off - 1)
        let suf := p.drop (start + off + 1)
        let ranged : List (List Char) :=
          match splitDD content with
          | [s, e] => command.expandRange (trimC s) (trimC e)
          | _ => []
        let expansions := if ranged.isEmpty then (splitComma content).map trimC else ranged
        (expansions.map (fun ex => command.expandBracesL fuel (pre ++ ex ++ suf))).flatten

/-- part_000 `expandBraces`. -/
def command.expandBraces (pattern : String) : List String :=
  (command.expandBracesL (pattern.toList.count '{' + 1) pattern.toList).map String.mk

/-- The comparator of part_000 `sortEntries`: `time` and `size` compare
descending (`After` / `>`) falling back to the name when either `Info()`
fails; `reverse` negates the result. -/
def command.sortLess (f : Flags) (a b : FSEntry) : Bool :=
  let less :=
    match f.sortBy with
    | .time =>
      if entryInfoOk a && entryInfoOk b then
        decide ((entryMeta b).modTime < (entryMeta a).modTime)
      else strLtB (entryName a) (entryName b)
    | .size =>
      if entryInfoOk a && entryInfoOk b then
        decide ((entryMeta b).size < (entryMeta a).size)
      else strLtB (entryName a) (entryName b)
    | .name => strLtB (entryName a) (entryName b)
  if f.reverse then !less else less

/-- part_000 `sortEntries` (`sort.Slice` with `command.sortLess`). -/
def command.sortEntries (f : Flags) (l : List FSEntry) : List FSEntry :=
  List.insertionSort (fun a b => command.sortLess f a b = true) l

/-- part_000 `formatHumanReadable`.  Its units slice is
`{"K","M","G","T","P","E"}`; `none` models the index panic beyond it
(unreachable for `int64` sizes, see `c9_units_in_bounds`). -/
def command.formatHumanReadable (size : Int) : Option String :=
  if size < 1024 then some (toString size ++ "B")
  else
    let p := hrLoop 64 (size / 1024) 1024 0
    match ["K", "M", "G", "T", "P", "E"][p.2]? with
    | some u => some (fmtF1 size p.1 ++ u)
    | none => none

/-- part_000 `formatEntry`/`formatLong` (size field width 10, `time.DateTime`
timestamp); `none` models a panic inside `formatHumanReadable`. -/
def command.formatEntry (f : Flags) (path : String) (m : FileMeta) : Option String :=
  if f.longFormat then
    match (if f.humanReadable then command.formatHumanReadable m.size else some (toString m.size)) with
    | none => none
    | some s => some (m.mode ++ " " ++ padLeft 10 s ++ " " ++ fmtTime m.modTime ++ " " ++ pathBase path)
  else some (pathBase path)

/-- Output of a part_000 operation (no cancellation context: the part_000
executor never polls one). -/
structure command.Out3 where
  out : List String
  err : List String
  res : LRes
deriving DecidableEq, Repr

/-- The emit loop of part_000 `listSingle` (lines 261–270): entries whose
`Info()` fails produce a diagnostic and are skipped. -/
def command.emitLoop (f : Flags) (dirPath : String) : List FSEntry → command.Out3
  | [] => ⟨[], [], .ok⟩
  | e :: rest =>
    let fullPath := pathJoin dirPath (entryName e)
    if !entryInfoOk e then
      let r := command.emitLoop f dirPath rest
      ⟨r.out, ("ls: " ++ fullPath ++ ": " ++ infoErrMsg) :: r.err, r.res⟩
    else
      match command.formatEntry f fullPath (entryMeta e) with
      | none => ⟨[], [], .panicked⟩
      | some line =>
        let r := command.emitLoop f dirPath rest
        ⟨line :: r.out, r.err, r.res⟩

/-- part_000 `listSingle`: filter hidden names, sort, emit. -/
def command.listSingle (f : Flags) (dirPath : String) (cs : List FSEntry) : command.Out3 :=
  command.emitLoop f dirPath
    (command.sortEntries f (cs.filter (fun e => f.allFiles || !hiddenName (entryName e))))

/-- The two recursion sites of part_000 `listRecursive`'s `filepath.WalkDir`
traversal: visiting one node, and walking a directory's (name-sorted)
children. -/
inductive command.WCall where
  | node (path name : String) (infoOk : Bool) (n : FSNode) (isRoot : Bool)
  | kids (path : String) (l : List FSEntry)

/-- part_000 `listRecursive`'s walk, fuelled.  `filepath.WalkDir` visits the
root first, then children in lexical order; the callback skips hidden names
(pruning whole subtrees via `SkipDir`) except for the root itself, reports
`Info()` failures as diagnostics while still descending, and emits one
formatted line per visited entry — no blank or `<path>:` header lines. -/
def command.walkF (f : Flags) : Nat → command.WCall → command.Out3
  | 0, _ => ⟨[], [], .panicked⟩
  | fuel + 1, .node path name ok n isRoot =>
    if !f.allFiles && hiddenName name && !isRoot then ⟨[], [], .ok⟩
    else
      let head : command.Out3 :=
        if !ok then ⟨[], ["ls: " ++ path ++ ": " ++ infoErrMsg], .ok⟩
        else
          match command.formatEntry f path (nodeMeta n) with
          | none => ⟨[], [], .panicked⟩
          | some line => ⟨[line], [], .ok⟩
      match head.res with
      | .panicked => head
      | _ =>
        match n with
        | .file _ => head
        | .dir _ cs =>
          let sorted := List.insertionSort (fun a b => strLtB (entryName a) (entryName b) = true) cs
          let r := command.walkF f fuel (.kids path sorted)
          ⟨head.out ++ r.out, head.err ++ r.err, r.res⟩
  | _ + 1, .kids _ [] => ⟨[], [], .ok⟩
  | fuel + 1, .kids path (e :: rest) =>
    let c := command.walkF f fuel
      (.node (pathJoin path (entryName e)) (entryName e) (entryInfoOk e) (entryNode e) false)
    match c.res with
    | .panicked => c
    | _ =>
      let r := command.walkF f fuel (.kids path rest)
      ⟨c.out ++ r.out, c.err ++ r.err, r.res⟩

/-- part_000 `listRecursive` on a resolved root node. -/
def command.listRecursive (f : Flags) (dirPath : String) (root : FSNode) : command.Out3 :=
  command.walkF f (nodeSize root + 1) (.node dirPath (pathBase dirPath) true root true)

/-- part_000 `listDirectory`: dispatch on the `Recursive` flag. -/
def command.listDirectory (f : Flags) (dirPath : String) (n : FSNode) : command.Out3 :=
  if f.recursive then command.listRecursive f dirPath n
  else
    match n with
    | .dir _ cs => command.listSingle f dirPath cs
    | .file _ => ⟨[], [], .ok⟩

/-- Append each of `xs` to `acc` unless already present (the `seen` map of
part_000 `expandPatterns`). -/
def command.addUnseen (acc : List String) (xs : List String) : List String :=
  xs.foldl (fun a x => if x ∈ a then a else a ++ [x]) acc

/-- Glob each brace-expanded pattern (part_000 `expandPatterns` inner loop):
a glob error aborts the whole expansion; a glob with no matches keeps the
literal pattern. -/
def command.globLoop (glob : String → Option (List String)) :
    List String → List String → Option (List String)
  | acc, [] => some acc
  | acc, ex :: rest =>
    match glob ex with
    | none => none
    | some [] => command.globLoop glob (command.addUnseen acc [ex]) rest
    | some ms => command.globLoop glob (command.addUnseen acc ms) rest

/-- part_000 `expandPatterns`: brace expansion, then glob expansion with
dedup; `none` models the `invalid pattern` error return. -/
def command.expandPatterns (glob : String → Option (List String)) :
    List String → List String → Option (List String)
  | acc, [] => some acc
  | acc, pat :: rest =>
    match command.globLoop glob acc (command.expandBraces pat) with
    | none => none
    | some acc' => command.expandPatterns glob acc' rest

/-- The per-path loop of the part_000 executor (lines 68–87): stat failures
become diagnostics and processing continues; non-directories are formatted
directly; directories are handed to `listDirectory` (whose error return —
always nil in this model, where directory reads succeed — would also become a
diagnostic). -/
def command.pathLoop (f : Flags) (resolve : String → Option FSNode) : List String → command.Out3
  | [] => ⟨[], [], .ok⟩
  | p :: rest =>
    match resolve p with
    | none =>
      let r := command.pathLoop f resolve rest
      ⟨r.out, ("ls: " ++ p ++ ": " ++ errMsg .statFail) :: r.err, r.res⟩
    | some n =>
      if isDirN n then
        let d := command.listDirectory f p n
        match d.res with
        | .panicked => ⟨d.out, d.err, .panicked⟩
        | _ =>
          let r := command.pathLoop f resolve rest
          ⟨d.out ++ r.out, d.err ++ r.err, r.res⟩
      else
        match command.formatEntry f p (nodeMeta n) with
        | none => ⟨[], [], .panicked⟩
        | some line =>
          let r := command.pathLoop f resolve rest
          ⟨line :: r.out, r.err, r.res⟩

/-- part_000 `Executor`: default an empty positional list to `["."]`, expand
braces and globs (a pattern error is fatal to the invocation), fall back to
the original patterns when nothing matched, then process each path. -/
def command.executor (f : Flags) (glob : String → Option (List String))
    (resolve : String → Option FSNode) (patterns : List String) : command.Out3 :=
  let patterns' := if patterns.isEmpty then ["."] else patterns
  match command.expandPatterns glob [] patterns' with
  | none => ⟨[], ["ls: invalid pattern"], .patternFail⟩
  | some paths0 =>
    let paths := if paths0.isEmpty then patterns' else paths0
    command.pathLoop f resolve paths

/-- The visibility filter of both listers: hidden names (leading `.`) are
dropped unless `AllFiles` is set. -/
def visibleEntries (f : Flags) (cs : List FSEntry) : List FSEntry :=
  cs.filter (fun e => f.allFiles || !hiddenName (entryName e))

/-- A size small enough that both human-readable formatters stay inside their
units slices (`< 1024^5`, the ls.go limit; part_000 allows more). -/
def goodMeta (m : FileMeta) : Bool := decide (m.size < 1024 ^ 5)

mutual

/-- A well-behaved tree: every `Info()` call succeeds and every size is small
enough that formatting cannot panic (see `goodMeta`). -/
def goodN : FSNode → Bool
  | .file m => goodMeta m
  | .dir m cs => goodMeta m && goodL cs

/-- `goodN` for every entry of a directory, including `Info()` success. -/
def goodL : List FSEntry → Bool
  | [] => true
  | (_, ok, n) :: rest => ok && goodN n && goodL rest

end

/-- Flip the `Reverse` flag. -/
def flipRev (f : Flags) : Flags := { f with reverse := !f.reverse }

/-- Goodness of a pending `ls.runF` call: the node exists and the relevant
subtree is well-behaved. -/
def ls.goodC : ls.Call → Bool
  | .path _ none => false
  | .path _ (some n) => goodN n
  | .loop _ l _ => goodL l

/-- Whether two entries have distinct values of the chosen sort key. -/
def sortKeyNe (f : Flags) (a b : FSEntry) : Bool :=
  match f.sortBy with
  | .name => decide (entryName a ≠ entryName b)
  | .time => decide ((entryMeta a).modTime ≠ (entryMeta b).modTime)
  | .size => decide ((entryMeta a).size ≠ (entryMeta b).size)

theorem charListLt_trans : ∀ a b c : List Char,
    charListLt a b = true → charListLt b c = true → charListLt a c = true := by
  intro a
  induction a with
  | nil =>
    intro b c hab hbc
    cases b with
    | nil => simp [charListLt] at hab
    | cons y bs =>
      cases c with
      | nil => simp [charListLt] at hbc
      | cons z cs => simp [charListLt]
  | cons x as ih =>
    intro b c hab hbc
    cases b with
    | nil => simp [charListLt] at hab
    | cons y bs =>
      cases c with
      | nil => simp [charListLt] at hbc
      | cons z cs =>
        simp only [charListLt] at hab hbc ⊢
        rcases lt_trichotomy x y with hxy | hxy | hxy
        · rcases lt_trichotomy y z with hyz | hyz | hyz
          · simp [lt_trans hxy hyz]
          · subst hyz; simp [hxy]
          · simp [lt_asymm hyz, hyz] at hbc
        · subst hxy
          simp only [lt_irrefl, if_false] at hab
          rcases lt_trichotomy x z with hxz | hxz | hxz
          · simp [hxz]
          · subst hxz
            simp only [lt_irrefl, if_false] at hbc ⊢
            exact ih bs cs hab hbc
          · simp [lt_asymm hxz, hxz] at hbc
        · simp [lt_asymm hxy, hxy] at hab

theorem charListLt_total_ne : ∀ a b : List Char,
    a ≠ b → charListLt a b = true ∨ charListLt b a = true := by
  intro a
  induction a with
  | nil =>
    intro b hne
    cases b with
    | nil => exact absurd rfl hne
    | cons y bs => left; simp [charListLt]
  | cons x as ih =>
    intro b hne
    cases b with
    | nil => right; simp [charListLt]
    | cons y bs =>
      rcases lt_trichotomy x y with h | h | h
      · left; simp [charListLt, h]
      · subst h
        have htail : as ≠ bs := by intro hh; exact hne (by rw [hh])
        rcases ih bs htail with ht | ht
        · left; simp [charListLt, lt_irrefl, ht]
        · right; simp [charListLt, lt_irrefl, ht]
      · right; simp [charListLt, h]

theorem strLtB_trans (s t u : String) (h1 : strLtB s t = true) (h2 : strLtB t u = true) :
    strLtB s u = true :=
  charListLt_trans _ _ _ h1 h2

theorem strLtB_total_ne (s t : String) (h : s ≠ t) :
    strLtB s t = true ∨ strLtB t s = true := by
  apply charListLt_total_ne
  intro hdata
  apply h
  cases s with
  | mk d1 =>
    cases t with
    | mk d2 => exact congrArg String.mk hdata

theorem hrLoop_exp_le : ∀ (k fuel : Nat) (n div : Int) (exp : Nat),
    n < 1024 ^ (k + 1) → k ≤ fuel → (hrLoop fuel n div exp).2 ≤ exp + k := by
  intro k
  induction k with
  | zero =>
    intro fuel n div exp hn _
    cases fuel with
    | zero => simp [hrLoop]
    | succ fu =>
      have : ¬(1024 ≤ n) := by
        norm_num at hn
        omega
      simp [hrLoop, this]
  | succ k ih =>
    intro fuel n div exp hn hf
    cases fuel with
    | zero => omega
    | succ fu =>
      by_cases hge : 1024 ≤ n
      · simp only [hrLoop, if_pos hge]
        have hq : n / 1024 < 1024 ^ (k + 1) := by
          rw [Int.ediv_lt_iff_lt_mul (by norm_num)]
          calc n < 1024 ^ (k + 2) := hn
          _ = 1024 ^ (k + 1) * 1024 := by ring
        have := ih fu (n / 1024) (div * 1024) (exp + 1) hq (by omega)
        omega
      · simp [hrLoop, hge]

theorem hrLoop_div_pos : ∀ (fuel : Nat) (n div : Int) (exp : Nat),
    0 < div → 0 < (hrLoop fuel n div exp).1 := by
  intro fuel
  induction fuel with
  | zero => intro n div exp h; exact h
  | succ fu ih =>
    intro n div exp h
    by_cases hge : 1024 ≤ n
    · simp only [hrLoop, if_pos hge]
      exact ih _ _ _ (by positivity)
    · simpa [hrLoop, hge] using h

theorem fmtF1_shape (size div : Int) :
    ∃ n d : Int, 0 ≤ d ∧ d < 10 ∧ fmtF1 size div = toString n ++ "." ++ toString d :=
  ⟨fmtF1Q size div / 10, fmtF1Q size div % 10,
    Int.emod_nonneg _ (by norm_num), Int.emod_lt_of_pos _ (by norm_num), rfl⟩

theorem command.hrScaledShape (size : Int) (h1 : 1024 ≤ size) (h2 : size < 2 ^ 63) :
    ∃ (n d : Int) (u : String), 0 ≤ d ∧ d < 10 ∧ u ∈ ["K", "M", "G", "T", "P", "E"] ∧
      command.formatHumanReadable size = some (toString n ++ "." ++ toString d ++ u) := by
  have hexp : (hrLoop 64 (size / 1024) 1024 0).2 ≤ 5 := by
    have hq : size / 1024 < 1024 ^ 6 := by
      rw [Int.ediv_lt_iff_lt_mul (by norm_num)]
      calc size < 2 ^ 63 := h2
        _ ≤ 1024 ^ 6 * 1024 := by norm_num
    exact hrLoop_exp_le 5 64 _ 1024 0 hq (by omega)
  have hlen : (hrLoop 64 (size / 1024) 1024 0).2 < (["K", "M", "G", "T", "P", "E"] : List String).length := by
    simpa using by omega
  obtain ⟨n, d, hd0, hd10, hfmt⟩ := fmtF1_shape size (hrLoop 64 (size / 1024) 1024 0).1
  refine ⟨n, d, _, hd0, hd10, List.getElem_mem hlen, ?_⟩
  unfold command.formatHumanReadable
  rw [if_neg (by omega)]
  dsimp only
  rw [List.getElem?_eq_getElem hlen]
  rw [hfmt]

theorem ls.hrScaledShape4 (size : Int) (h1 : 1024 ≤ size) (h2 : size < 1024 ^ 5) :
    ∃ (n d : Int) (u : String), 0 ≤ d ∧ d < 10 ∧ u ∈ ["K", "M", "G", "T"] ∧
      ls.humanReadableSize size = some (toString n ++ "." ++ toString d ++ u) := by
  have hexp : (hrLoop 64 (size / 1024) 1024 0).2 ≤ 3 := by
    have hq : size / 1024 < 1024 ^ 4 := by
      rw [Int.ediv_lt_iff_lt_mul (by norm_num)]
      calc size < 1024 ^ 5 := h2
        _ ≤ 1024 ^ 4 * 1024 := by norm_num
    exact hrLoop_exp_le 3 64 _ 1024 0 hq (by omega)
  have hlen : (hrLoop 64 (size / 1024) 1024 0).2 < (["K", "M", "G", "T"] : List String).length := by
    simpa using by omega
  obtain ⟨n, d, hd0, hd10, hfmt⟩ := fmtF1_shape size (hrLoop 64 (size / 1024) 1024 0).1
  refine ⟨n, d, _, hd0, hd10, List.getElem_mem hlen, ?_⟩
  unfold ls.humanReadableSize
  rw [if_neg (by omega)]
  dsimp only
  rw [List.getElem?_eq_getElem hlen]
  rw [hfmt]

/-- C7: the human-readable size formatters of both variants map 0 to `"0B"`,
1023 to `"1023B"`, 1536 to `"1.5K"` and 1048576 to `"1.0M"`; every size below
1024 renders as the literal byte count suffixed with `B`; and every scaled
value renders as an integer part, exactly one fractional digit and a
single-letter base-1024 unit suffix (part_000 on the whole positive `int64`
range; ls.go up to its `1024^5` unit limit, see C9). -/
theorem c7_human_readable_sizes :
    (ls.humanReadableSize 0 = some "0B" ∧ command.formatHumanReadable 0 = some "0B") ∧
    (ls.humanReadableSize 1023 = some "1023B" ∧ command.formatHumanReadable 1023 = some "1023B") ∧
    (ls.humanReadableSize 1536 = some "1.5K" ∧ command.formatHumanReadable 1536 = some "1.5K") ∧
    (ls.humanReadableSize 1048576 = some "1.0M" ∧
      command.formatHumanReadable 1048576 = some "1.0M") ∧
    (∀ size : Int, size < 1024 →
      ls.humanReadableSize size = some (toString size ++ "B") ∧
      command.formatHumanReadable size = some (toString size ++ "B")) ∧
    (∀ size : Int, 1024 ≤ size → size < 2 ^ 63 →
      ∃ (n d : Int) (u : String), 0 ≤ d ∧ d < 10 ∧ u ∈ ["K", "M", "G", "T", "P", "E"] ∧
        command.formatHumanReadable size = some (toString n ++ "." ++ toString d ++ u)) ∧
    (∀ size : Int, 1024 ≤ size → size < 1024 ^ 5 →
      ∃ (n d : Int) (u : String), 0 ≤ d ∧ d < 10 ∧ u ∈ ["K", "M", "G", "T"] ∧
        ls.humanReadableSize size = some (toString n ++ "." ++ toString d ++ u)) := by
  refine ⟨⟨by decide, by decide⟩, ⟨by decide, by decide⟩, ⟨by decide, by decide⟩,
    ⟨by decide, by decide⟩, ?_, ?_, ?_⟩
  · intro size h
    constructor
    · unfold ls.humanReadableSize
      rw [if_pos h]
    · unfold command.formatHumanReadable
      rw [if_pos h]
  · exact command.hrScaledShape
  · exact ls.hrScaledShape4

/-- Witness for C7: the general parts instantiated at 512 (literal bytes) and
1536 (scaled). -/
theorem c7_witness :
    ((512 : Int) < 1024 ∧ ls.humanReadableSize 512 = some (toString (512 : Int) ++ "B") ∧
      command.formatHumanReadable 512 = some (toString (512 : Int) ++ "B")) ∧
    ((1024 : Int) ≤ 1536 ∧ (1536 : Int) < 1024 ^ 5 ∧
      ∃ (n d : Int) (u : String), 0 ≤ d ∧ d < 10 ∧ u ∈ ["K", "M", "G", "T"] ∧
        ls.humanReadableSize 1536 = some (toString n ++ "." ++ toString d ++ u)) :=
  ⟨⟨by decide, (c7_human_readable_sizes.2.2.2.2.1 512 (by decide)).1,
      (c7_human_readable_sizes.2.2.2.2.1 512 (by decide)).2⟩,
    ⟨by decide, by decide, c7_human_readable_sizes.2.2.2.2.2.2 1536 (by decide) (by decide)⟩⟩

/-- C9 counterexample: ls.go's `humanReadableSize` has only the four units
`K,M,G,T`, so at `1024^5` (a valid `int64`) the computed exponent 4 indexes
past the slice — the claim that the unit index stays in bounds for every
`int64` is false of ls.go (modelled by the `none` result). -/
theorem c9_counterexample : ls.humanReadableSize (1024 ^ 5) = none := by decide

/-- C9 amended: part_000's `formatHumanReadable` (units `K,M,G,T,P,E`) is
total for every `int64` size — negative values render as the literal count
suffixed with `B` — while ls.go's variant (units `K,M,G,T` only) panics for
sizes of `1024^5` and above (see the counterexample). -/
theorem c9_units_in_bounds :
    ∀ size : Int, -(2 ^ 63) ≤ size → size < 2 ^ 63 →
      (∃ s, command.formatHumanReadable size = some s) ∧
      (size < 1024 → command.formatHumanReadable size = some (toString size ++ "B")) := by
  intro size _ h2
  constructor
  · by_cases h : size < 1024
    · exact ⟨toString size ++ "B", by unfold command.formatHumanReadable; rw [if_pos h]⟩
    · obtain ⟨n, d, u, _, _, _, hfmt⟩ := command.hrScaledShape size (by omega) h2
      exact ⟨_, hfmt⟩
  · intro h
    unfold command.formatHumanReadable
    rw [if_pos h]

/-- Witness for C9 (amended): at `1024^5` — where ls.go panics — part_000
formats successfully, and a negative size renders with the `B` suffix. -/
theorem c9_witness :
    (-(2 ^ 63) ≤ (1024 ^ 5 : Int) ∧ (1024 ^ 5 : Int) < 2 ^ 63 ∧
      ∃ s, command.formatHumanReadable (1024 ^ 5) = some s) ∧
    command.formatHumanReadable (-7) = some (toString (-7 : Int) ++ "B") :=
  ⟨⟨by decide, by decide, (c9_units_in_bounds (1024 ^ 5) (by decide) (by decide)).1⟩,
    (c9_units_in_bounds (-7) (by decide) (by decide)).2 (by decide)⟩

theorem findIdxBraceNoneAux : ∀ l : List Char, '{' ∉ l → ∀ i : Nat,
    List.findIdx? (· == '{') l i = none := by
  intro l
  induction l with
  | nil => intro _ i; rfl
  | cons c cs ih =>
    intro h i
    have hc : (c == '{') = false := by
      simp only [beq_eq_false_iff_ne, ne_eq]
      intro hh
      exact h (by simp [hh])
    show (if c == '{' then some i else List.findIdx? (· == '{') cs (i + 1)) = none
    rw [hc]
    simpa using ih (fun hm => h (List.mem_cons_of_mem _ hm)) (i + 1)

theorem findIdxBraceNone (l : List Char) (h : '{' ∉ l) :
    l.findIdx? (· == '{') = none :=
  findIdxBraceNoneAux l h 0

/-- C5: brace expansion maps `{a,b,c}` to `[a, b, c]`, `{1..3}` to
`[1, 2, 3]`, `{3..1}` to `[3, 2, 1]`, and any pattern containing no brace to
the one-element list holding the pattern unchanged. -/
theorem c5_brace_expansion :
    command.expandBraces "{a,b,c}" = ["a", "b", "c"] ∧
    command.expandBraces "{1..3}" = ["1", "2", "3"] ∧
    command.expandBraces "{3..1}" = ["3", "2", "1"] ∧
    ∀ p : String, '{' ∉ p.toList → '}' ∉ p.toList → command.expandBraces p = [p] := by
  refine ⟨by decide, by decide, by decide, ?_⟩
  intro p h1 _
  unfold command.expandBraces
  rw [List.count_eq_zero.mpr h1]
  simp only [command.expandBracesL]
  rw [findIdxBraceNone _ h1]
  rfl

/-- Witness for C5: the no-brace case at the literal pattern `xy`. -/
theorem c5_witness :
    '{' ∉ "xy".toList ∧ '}' ∉ "xy".toList ∧ command.expandBraces "xy" = ["xy"] :=
  ⟨by decide, by decide, c5_brace_expansion.2.2.2 "xy" (by decide) (by decide)⟩

/-- C1 counterexample: a single-path invocation of ls.go's `Execute` in which
cancellation is first observed inside `listPath` (the context allows exactly
two successful checks).  `listPath` returns the cancellation error, `Execute`
prints it as the diagnostic line `ls: p: context canceled` (line 56) and then
returns nil — so the operation neither returns the cancellation nor keeps it
off the diagnostic stream, contradicting the claim. -/
theorem c1_counterexample :
    (ls.execute ⟨false, false, false, false, false, .name⟩
        (fun _ => some (.file ⟨5, 7, "m"⟩)) ["p"] (some 2)).res = .ok ∧
    (ls.execute ⟨false, false, false, false, false, .name⟩
        (fun _ => some (.file ⟨5, 7, "m"⟩)) ["p"] (some 2)).err =
      ["ls: p: context canceled"] := by
  constructor
  · decide
  · decide

/-- C1 amended: when cancellation is observed at `Execute`'s own initial check
the whole operation does return immediately with the cancellation and no line
is written to either stream; but a cancellation first observed inside
`listPath` is reported as an `ls: <path>: <error>` diagnostic line and the
operation continues past it, returning success instead of the cancellation. -/
theorem c1_cancellation_result :
    (∀ (f : Flags) (resolve : String → Option FSNode) (paths : List String),
      ls.execute f resolve paths (some 0) = ⟨[], [], some 0, .canceled⟩) ∧
    (ls.execute ⟨false, false, false, false, false, .name⟩
        (fun _ => some (.file ⟨5, 7, "m"⟩)) ["q"] (some 2)).err =
      ["ls: q: context canceled"] ∧
    (ls.execute ⟨false, false, false, false, false, .name⟩
        (fun _ => some (.file ⟨5, 7, "m"⟩)) ["q"] (some 2)).res = .ok :=
  ⟨fun _ _ _ => rfl, by decide, by decide⟩

/-- C3: the claim's fallback is implemented by part_000 — when either
`Info()` fails its comparator compares base names — but ls.go's comparator
discards the `Info()` error and dereferences the nil metadata (modelled by
`none`): at two entries whose metadata retrieval fails, sorting by `time`
panics in ls.go instead of falling back.  The claim matches the spec's and
part_000's intent; ls.go's error discard is the slip. -/
theorem c3_metadata_fallback :
    ls.sortLess ⟨false, false, false, false, false, .time⟩
      ("a", false, .file ⟨1, 10, "m"⟩) ("b", false, .file ⟨2, 20, "m"⟩) = none ∧
    command.sortLess ⟨false, false, false, false, false, .time⟩
      ("a", false, .file ⟨1, 10, "m"⟩) ("b", false, .file ⟨2, 20, "m"⟩) =
      strLtB "a" "b" ∧
    strLtB "a" "b" = true := by
  refine ⟨by decide, by decide, by decide⟩

/-- C10: both variants treat an empty positional list exactly as the single
pattern `"."`: ls.go's `Execute` and part_000's `Executor` substitute `["."]`
before any other processing, so the two invocations are equal outright. -/
theorem c10_empty_paths_default :
    ∀ (f : Flags) (resolve : String → Option FSNode)
      (glob : String → Option (List String)) (ctx : Ctx),
      ls.execute f resolve [] ctx = ls.execute f resolve ["."] ctx ∧
      command.executor f glob resolve [] = command.executor f glob resolve ["."] := by
  intro f resolve glob ctx
  constructor
  · unfold ls.execute
    rcases hc : ctxCheck ctx with ⟨b, ctx'⟩
    cases b <;> simp
  · rfl

theorem decide_lt_flip_of_ne (x y : Int) (h : x ≠ y) : decide (x < y) = !decide (y < x) := by
  rcases lt_trichotomy x y with h' | h' | h'
  · simp [h', lt_asymm h']
  · exact absurd h' h
  · simp [h', lt_asymm h']

theorem flipRev_flipRev (f : Flags) : flipRev (flipRev f) = f := by
  cases f
  simp [flipRev]

/-- C4: with `Reverse` unset and retrievable metadata, ls.go's comparator
orders the `time` and `size` keys ascending (earlier modification time first,
smaller size first) while part_000's orders them descending (most recent
first, largest first); on entries with distinct keys the two orders are exact
inverses of each other. -/
theorem c4_variant_sort_directions :
    ∀ (f : Flags) (a b : FSEntry), f.reverse = false →
      entryInfoOk a = true → entryInfoOk b = true →
      (f.sortBy = .time → (entryMeta a).modTime ≠ (entryMeta b).modTime →
        ls.sortLess f a b = some (decide ((entryMeta a).modTime < (entryMeta b).modTime)) ∧
        command.sortLess f a b = decide ((entryMeta b).modTime < (entryMeta a).modTime) ∧
        ls.sortLess f a b = some (!(command.sortLess f a b)) ∧
        ls.sortLess f a b = some (command.sortLess f b a)) ∧
      (f.sortBy = .size → (entryMeta a).size ≠ (entryMeta b).size →
        ls.sortLess f a b = some (decide ((entryMeta a).size < (entryMeta b).size)) ∧
        command.sortLess f a b = decide ((entryMeta b).size < (entryMeta a).size) ∧
        ls.sortLess f a b = some (!(command.sortLess f a b)) ∧
        ls.sortLess f a b = some (command.sortLess f b a)) := by
  intro f a b hrev hA hB
  constructor
  · intro hk hne
    simp only [ls.sortLess, command.sortLess, hk, hrev, hA, hB, Bool.and_self, if_true,
      Bool.false_eq_true, if_false]
    refine ⟨trivial, trivial, ?_, trivial⟩
    rw [decide_lt_flip_of_ne _ _ hne]
  · intro hk hne
    simp only [ls.sortLess, command.sortLess, hk, hrev, hA, hB, Bool.and_self, if_true,
      Bool.false_eq_true, if_false]
    refine ⟨trivial, trivial, ?_, trivial⟩
    rw [decide_lt_flip_of_ne _ _ hne]

/-- Witness for C4: two entries with distinct modification times under the
`time` key, and distinct sizes under the `size` key. -/
theorem c4_witness :
    (ls.sortLess ⟨false, false, false, false, false, .time⟩
        ("a", true, .file ⟨1, 10, "m"⟩) ("b", true, .file ⟨2, 20, "m"⟩) =
      some (!(command.sortLess ⟨false, false, false, false, false, .time⟩
        ("a", true, .file ⟨1, 10, "m"⟩) ("b", true, .file ⟨2, 20, "m"⟩)))) ∧
    (ls.sortLess ⟨false, false, false, false, false, .size⟩
        ("a", true, .file ⟨1, 10, "m"⟩) ("b", true, .file ⟨2, 20, "m"⟩) =
      some (command.sortLess ⟨false, false, false, false, false, .size⟩
        ("b", true, .file ⟨2, 20, "m"⟩) ("a", true, .file ⟨1, 10, "m"⟩))) :=
  ⟨((c4_variant_sort_directions ⟨false, false, false, false, false, .time⟩
      ("a", true, .file ⟨1, 10, "m"⟩) ("b", true, .file ⟨2, 20, "m"⟩)
      rfl rfl rfl).1 rfl (by decide)).2.2.1,
    ((c4_variant_sort_directions ⟨false, false, false, false, false, .size⟩
      ("a", true, .file ⟨1, 10, "m"⟩) ("b", true, .file ⟨2, 20, "m"⟩)
      rfl rfl rfl).2 rfl (by decide)).2.2.2⟩

/-- C8: with metadata retrievable, each variant's comparator is transitive and
total on entries with distinct values of the chosen key (a total order
respecting the key); the `Reverse` flag is a pointwise inversion of the
comparison result whatever the key; and flipping `Reverse` twice yields the
identical sorted output. -/
theorem c8_sort_total_order_reverse :
    ∀ (f : Flags) (a b c : FSEntry) (l : List FSEntry),
      f.reverse = false → entryInfoOk a = true → entryInfoOk b = true → entryInfoOk c = true →
      ((command.sortLess f a b = true → command.sortLess f b c = true →
          command.sortLess f a c = true) ∧
        (sortKeyNe f a b = true → command.sortLess f a b = true ∨ command.sortLess f b a = true) ∧
        ((ls.sortLess f a b).getD false = true → (ls.sortLess f b c).getD false = true →
          (ls.sortLess f a c).getD false = true) ∧
        (sortKeyNe f a b = true →
          (ls.sortLess f a b).getD false = true ∨ (ls.sortLess f b a).getD false = true)) ∧
      (command.sortLess (flipRev f) a b = !(command.sortLess f a b) ∧
        ls.sortLess (flipRev f) a b = (ls.sortLess f a b).map (fun x => !x)) ∧
      (command.sortEntries (flipRev (flipRev f)) l = command.sortEntries f l ∧
        ls.sortEntries (flipRev (flipRev f)) l = ls.sortEntries f l) := by
  intro f a b c l hrev hA hB hC
  refine ⟨⟨?_, ?_, ?_, ?_⟩, ⟨?_, ?_⟩, ⟨?_, ?_⟩⟩
  · rcases hk : f.sortBy with _ | _ | _ <;>
      simp only [command.sortLess, hk, hrev, hA, hB, hC, Bool.and_self, if_true,
        Bool.false_eq_true, if_false, decide_eq_true_eq]
    · exact strLtB_trans _ _ _
    · omega
    · omega
  · intro hne
    rcases hk : f.sortBy with _ | _ | _ <;>
      simp only [sortKeyNe, hk, decide_eq_true_eq] at hne <;>
      simp only [command.sortLess, hk, hrev, hA, hB, hC, Bool.and_self, if_true,
        Bool.false_eq_true, if_false, decide_eq_true_eq]
    · exact strLtB_total_ne _ _ hne
    · omega
    · omega
  · rcases hk : f.sortBy with _ | _ | _ <;>
      simp only [ls.sortLess, hk, hrev, hA, hB, hC, Bool.and_self, if_true,
        Bool.false_eq_true, if_false, Option.getD_some, decide_eq_true_eq]
    · exact strLtB_trans _ _ _
    · omega
    · omega
  · intro hne
    rcases hk : f.sortBy with _ | _ | _ <;>
      simp only [sortKeyNe, hk, decide_eq_true_eq] at hne <;>
      simp only [ls.sortLess, hk, hrev, hA, hB, hC, Bool.and_self, if_true,
        Bool.false_eq_true, if_false, Option.getD_some, decide_eq_true_eq]
    · exact strLtB_total_ne _ _ hne
    · omega
    · omega
  · rcases hk : f.sortBy with _ | _ | _ <;>
      simp [command.sortLess, flipRev, hk, hrev, hA, hB]
  · rcases hk : f.sortBy with _ | _ | _ <;>
      simp [ls.sortLess, flipRev, hk, hrev, hA, hB]
  · rw [flipRev_flipRev]
  · rw [flipRev_flipRev]

/-- Witness for C8: three concrete entries and a concrete list under the
`name` key. -/
theorem c8_witness :
    (command.sortLess ⟨false, false, false, false, false, .name⟩
        ("a", true, .file ⟨1, 1, "m"⟩) ("b", true, .file ⟨2, 2, "m"⟩) = true ∨
      command.sortLess ⟨false, false, false, false, false, .name⟩
        ("b", true, .file ⟨2, 2, "m"⟩) ("a", true, .file ⟨1, 1, "m"⟩) = true) ∧
    command.sortEntries (flipRev (flipRev ⟨false, false, false, false, false, .name⟩))
        [("b", true, .file ⟨2, 2, "m"⟩), ("a", true, .file ⟨1, 1, "m"⟩)] =
      command.sortEntries ⟨false, false, false, false, false, .name⟩
        [("b", true, .file ⟨2, 2, "m"⟩), ("a", true, .file ⟨1, 1, "m"⟩)] :=
  ⟨((c8_sort_total_order_reverse ⟨false, false, false, false, false, .name⟩
      ("a", true, .file ⟨1, 1, "m"⟩) ("b", true, .file ⟨2, 2, "m"⟩)
      ("b", true, .file ⟨2, 2, "m"⟩) [] rfl rfl rfl rfl).1.2.1 (by decide)),
    ((c8_sort_total_order_reverse ⟨false, false, false, false, false, .name⟩
      ("a", true, .file ⟨1, 1, "m"⟩) ("b", true, .file ⟨2, 2, "m"⟩)
      ("b", true, .file ⟨2, 2, "m"⟩)
      [("b", true, .file ⟨2, 2, "m"⟩), ("a", true, .file ⟨1, 1, "m"⟩)]
      rfl rfl rfl rfl).2.2.1)⟩

theorem nodeSize_pos : ∀ n : FSNode, 1 ≤ nodeSize n := by
  intro n
  cases n <;> simp [nodeSize]

theorem entsSize_cons (e : FSEntry) (l : List FSEntry) :
    entsSize (e :: l) = 1 + nodeSize (entryNode e) + entsSize l := by
  rcases e with ⟨nm, ok, nd⟩
  rfl

theorem ls.callB_pos : ∀ c : ls.Call, 1 ≤ ls.callB c := by
  intro c
  cases c with
  | path p node? => cases node? <;> simp [ls.callB]
  | loop p l i => simp [ls.callB]

theorem entsSize_perm : ∀ {l l' : List FSEntry}, l.Perm l' → entsSize l = entsSize l' := by
  intro l l' h
  induction h with
  | nil => rfl
  | cons x _ ih => rw [entsSize_cons, entsSize_cons, ih]
  | swap x y l => rw [entsSize_cons, entsSize_cons, entsSize_cons, entsSize_cons]; omega
  | trans _ _ ih1 ih2 => exact ih1.trans ih2

theorem entsSize_filter_le (p : FSEntry → Bool) : ∀ l : List FSEntry,
    entsSize (l.filter p) ≤ entsSize l := by
  intro l
  induction l with
  | nil => simp
  | cons e rest ih =>
    rw [List.filter_cons]
    by_cases hp : p e = true
    · rw [if_pos hp, entsSize_cons, entsSize_cons]
      omega
    · rw [if_neg hp, entsSize_cons]
      omega

theorem entsSize_sortEntries (f : Flags) (l : List FSEntry) :
    entsSize (ls.sortEntries f l) = entsSize l :=
  entsSize_perm (List.perm_insertionSort _ l)

theorem ls.filterLoop_none (f : Flags) : ∀ (l : List FSEntry) (i : Nat),
    ls.filterLoop f l i none = (none, some (visibleEntries f l)) := by
  intro l
  induction l with
  | nil => intro i; rfl
  | cons e rest ih =>
    intro i
    have hstep : ls.filterLoop f rest (i + 1) none = (none, some (visibleEntries f rest)) := ih _
    by_cases hvis : (!f.allFiles && hiddenName (entryName e)) = true
    · have hv' : (f.allFiles || !hiddenName (entryName e)) = false := by
        cases hA : f.allFiles <;> cases hH : hiddenName (entryName e) <;> simp_all
      cases hi : (i % 1000 == 0) <;>
        simp [ls.filterLoop, hi, ctxCheck, hstep, hvis, visibleEntries, List.filter_cons, hv']
    · have hv' : (f.allFiles || !hiddenName (entryName e)) = true := by
        cases hA : f.allFiles <;> cases hH : hiddenName (entryName e) <;> simp_all
      cases hi : (i % 1000 == 0) <;>
        simp [ls.filterLoop, hi, ctxCheck, hstep, hvis, visibleEntries, List.filter_cons, hv']

theorem ls.filterLoop_entsSize (f : Flags) : ∀ (l : List FSEntry) (i : Nat) (ctx ctx' : Ctx)
    (r : List FSEntry), ls.filterLoop f l i ctx = (ctx', some r) → entsSize r ≤ entsSize l := by
  intro l
  induction l with
  | nil =>
    intro i ctx ctx' r h
    rw [ls.filterLoop] at h
    injection h with h1 h2
    injection h2 with h2
    rw [← h2]
  | cons e rest ih =>
    intro i ctx ctx' r h
    have hstep : ∀ ctx0, (match ls.filterLoop f rest (i + 1) ctx0 with
        | (ctx'', none) => (ctx'', none)
        | (ctx'', some l) =>
          if !f.allFiles && hiddenName (entryName e) then (ctx'', some l)
          else (ctx'', some (e :: l))) = (ctx', some r) → entsSize r ≤ entsSize (e :: rest) := by
      intro ctx0 hm
      rcases hfl : ls.filterLoop f rest (i + 1) ctx0 with ⟨ctx'', r?⟩
      rw [hfl] at hm
      cases r? with
      | none => simp at hm
      | some l0 =>
        have hl0 := ih (i + 1) ctx0 ctx'' l0 hfl
        dsimp only at hm
        by_cases hvis : (!f.allFiles && hiddenName (entryName e)) = true
        · rw [if_pos hvis] at hm
          simp at hm
          rw [← hm.2, entsSize_cons]
          omega
        · rw [if_neg hvis] at hm
          simp at hm
          rw [← hm.2, entsSize_cons, entsSize_cons]
          omega
    rw [ls.filterLoop] at h
    cases hi : (i % 1000 == 0)
    · rw [hi] at h
      simp only [Bool.false_eq_true, if_false] at h
      exact hstep ctx h
    · rw [hi] at h
      simp only [if_true] at h
      rcases hcc : ctxCheck ctx with ⟨b, c⟩
      rw [hcc] at h
      cases b
      · exact hstep c h
      · simp at h

theorem goodL_iff : ∀ l : List FSEntry,
    goodL l = true ↔ ∀ e ∈ l, entryInfoOk e = true ∧ goodN (entryNode e) = true := by
  intro l
  induction l with
  | nil => simp [goodL]
  | cons e rest ih =>
    rcases e with ⟨nm, ok, nd⟩
    simp only [goodL, Bool.and_eq_true, ih, List.mem_cons]
    constructor
    · rintro ⟨⟨hok, hnd⟩, hrest⟩ e' he'
      rcases he' with rfl | he'
      · exact ⟨hok, hnd⟩
      · exact hrest e' he'
    · intro h
      refine ⟨⟨(h _ (Or.inl rfl)).1, (h _ (Or.inl rfl)).2⟩, fun e' he' => h e' (Or.inr he')⟩

theorem ls.sortCrash_eq_false (f : Flags) (l : List FSEntry)
    (h : ∀ e ∈ l, entryInfoOk e = true) : ls.sortCrash f l = false := by
  have hany : l.any (fun e => !entryInfoOk e) = false := by
    rw [List.any_eq_false]
    intro e he
    simp [h e he]
  simp [ls.sortCrash, hany]

theorem ls.fmtEntry_isSome (f : Flags) (p : String) (m : FileMeta)
    (h : goodMeta m = true) : ∃ line, ls.fmtEntry f p m = some line := by
  unfold ls.fmtEntry
  cases hlf : f.longFormat
  · exact ⟨pathBase p, by simp⟩
  · simp only [if_true]
    cases hhr : f.humanReadable
    · exact ⟨m.mode ++ " " ++ padLeft 8 (toString m.size) ++ " " ++ fmtTime m.modTime ++ " " ++
        pathBase p, by simp [hhr]⟩
    · simp only [if_true]
      by_cases hsz : m.size < 1024
      · have hB : ls.humanReadableSize m.size = some (toString m.size ++ "B") := by
          unfold ls.humanReadableSize
          rw [if_pos hsz]
        exact ⟨m.mode ++ " " ++ padLeft 8 (toString m.size ++ "B") ++ " " ++ fmtTime m.modTime ++
          " " ++ pathBase p, by rw [hB]⟩
      · have hlim : m.size < 1024 ^ 5 := by
          simp only [goodMeta, decide_eq_true_eq] at h
          exact h
        obtain ⟨n, d, u, _, _, _, hfmt⟩ := ls.hrScaledShape4 m.size (by omega) hlim
        exact ⟨m.mode ++ " " ++ padLeft 8 (toString n ++ "." ++ toString d ++ u) ++ " " ++
          fmtTime m.modTime ++ " " ++ pathBase p, by rw [hfmt]⟩

theorem ls.runF_fuel_eq : ∀ (N : Nat) (f : Flags) (c : ls.Call) (ctx : Ctx) (a b : Nat),
    ls.callB c ≤ N → ls.callB c ≤ a + 1 → ls.callB c ≤ b + 1 →
    ls.runF f (a + 1) c ctx = ls.runF f (b + 1) c ctx := by
  intro N
  induction N using Nat.strong_induction_on with
  | _ N ih =>
    intro f c ctx a b hN ha hb
    cases c with
    | path p node? =>
      cases node? with
      | none => simp only [ls.runF]
      | some node =>
        cases node with
        | file m => simp only [ls.runF]
        | dir m cs =>
          have hcb : ls.callB (.path p (some (.dir m cs))) = entsSize cs + 2 := by
            simp [ls.callB, nodeSize]
            omega
          rw [hcb] at hN ha hb
          simp only [ls.runF]
          obtain ⟨a', rfl⟩ : ∃ a', a = a' + 1 := ⟨a - 1, by omega⟩
          obtain ⟨b', rfl⟩ : ∃ b', b = b' + 1 := ⟨b - 1, by omega⟩
          rcases hc1 : ctxCheck ctx with ⟨(_ | _), ctx1⟩ <;> simp only [hc1]
          rcases hc2 : ctxCheck ctx1 with ⟨(_ | _), ctx2⟩ <;> simp only [hc2]
          rcases hfl : ls.filterLoop f cs 0 ctx2 with ⟨ctx3, (_ | items)⟩ <;> simp only [hfl]
          have hitems : entsSize items ≤ entsSize cs :=
            ls.filterLoop_entsSize f cs 0 ctx2 ctx3 items hfl
          rcases hc4 : ctxCheck ctx3 with ⟨(_ | _), ctx4⟩ <;> simp only [hc4]
          · cases hcr : ls.sortCrash f items <;>
              simp only [hcr, Bool.false_eq_true, if_false, if_true]
            · rcases hc5 : ctxCheck ctx4 with ⟨(_ | _), ctx5⟩ <;> simp only [hc5]
              exact ih (entsSize items + 1) (by omega) f _ ctx5 a' b'
                (by simp [ls.callB, entsSize_sortEntries])
                (by simp [ls.callB, entsSize_sortEntries]; omega)
                (by simp [ls.callB, entsSize_sortEntries]; omega)
          · rcases hc5 : ctxCheck ctx4 with ⟨(_ | _), ctx5⟩ <;> simp only [hc5]
            exact ih (entsSize items + 1) (by omega) f _ ctx5 a' b'
              (by simp [ls.callB]) (by simp [ls.callB]; omega) (by simp [ls.callB]; omega)
    | loop p l i =>
      cases l with
      | nil => simp only [ls.runF]
      | cons e rest =>
        rcases e with ⟨nm, ok, nd⟩
        have hcb : ls.callB (.loop p ((nm, ok, nd) :: rest) i) =
            nodeSize nd + entsSize rest + 2 := by
          simp [ls.callB, entsSize]
          omega
        rw [hcb] at hN ha hb
        have hnd := nodeSize_pos nd
        simp only [ls.runF]
        obtain ⟨a', rfl⟩ : ∃ a', a = a' + 1 := ⟨a - 1, by omega⟩
        obtain ⟨b', rfl⟩ : ∃ b', b = b' + 1 := ⟨b - 1, by omega⟩
        have hrest : ∀ ctx' : Ctx,
            ls.runF f (a' + 1) (.loop p rest (i + 1)) ctx' =
            ls.runF f (b' + 1) (.loop p rest (i + 1)) ctx' := by
          intro ctx'
          exact ih (entsSize rest + 1) (by omega) f _ ctx' a' b'
            (by simp [ls.callB]) (by simp [ls.callB]; omega) (by simp [ls.callB]; omega)
        have hchild : ∀ ctx' : Ctx,
            ls.runF f (a' + 1) (.path (pathJoin p nm) (some nd)) ctx' =
            ls.runF f (b' + 1) (.path (pathJoin p nm) (some nd)) ctx' := by
          intro ctx'
          exact ih (nodeSize nd + 1) (by omega) f _ ctx' a' b'
            (by simp [ls.callB]) (by simp [ls.callB]; omega) (by simp [ls.callB]; omega)
        cases hi : (i % 100 == 0) <;>
          simp only [hi, Bool.false_eq_true, if_false, if_true]
        · cases hok : ok <;>
            simp only [entryInfoOk, entryName, entryNode, Bool.not_false, Bool.not_true,
              Bool.false_eq_true, if_false, if_true]
          · rw [hrest ctx]
          · rcases hfmt : ls.fmtEntry f (pathJoin p nm) (entryMeta (nm, true, nd)) with _ | line <;>
              simp only [hfmt]
            cases hrec : (f.recursive && isDirN nd) <;>
              simp only [hrec, Bool.false_eq_true, if_false, if_true]
            · rw [hrest ctx]
            · rw [hchild ctx]
              rcases hres : (ls.runF f (b' + 1) (.path (pathJoin p nm) (some nd)) ctx).res <;>
                simp only [hres] <;> first | rfl | rw [hrest]
        · rcases hc0 : ctxCheck ctx with ⟨(_ | _), ctx0⟩ <;> simp only [hc0]
          cases hok : ok <;>
            simp only [entryInfoOk, entryName, entryNode, Bool.not_false, Bool.not_true,
              Bool.false_eq_true, if_false, if_true]
          · rw [hrest ctx0]
          · rcases hfmt : ls.fmtEntry f (pathJoin p nm) (entryMeta (nm, true, nd)) with _ | line <;>
              simp only [hfmt]
            cases hrec : (f.recursive && isDirN nd) <;>
              simp only [hrec, Bool.false_eq_true, if_false, if_true]
            · rw [hrest ctx0]
            · rw [hchild ctx0]
              rcases hres : (ls.runF f (b' + 1) (.path (pathJoin p nm) (some nd)) ctx0).res <;>
                simp only [hres] <;> first | rfl | rw [hrest]

theorem ls.runF_eq_callB (f : Flags) (c : ls.Call) (ctx : Ctx) (fuel : Nat)
    (h : ls.callB c ≤ fuel) : ls.runF f fuel c ctx = ls.runF f (ls.callB c) c ctx := by
  have hpos := ls.callB_pos c
  obtain ⟨a, rfl⟩ : ∃ a, fuel = a + 1 := ⟨fuel - 1, by omega⟩
  obtain ⟨b, hbc⟩ : ∃ b, ls.callB c = b + 1 := ⟨ls.callB c - 1, by omega⟩
  rw [hbc]
  exact ls.runF_fuel_eq (a + 1) f c ctx a b (by omega) (by omega) (by omega)

theorem goodN_meta (n : FSNode) (h : goodN n = true) : goodMeta (nodeMeta n) = true := by
  cases n with
  | file m => exact h
  | dir m cs =>
    simp only [goodN, Bool.and_eq_true] at h
    exact h.1

theorem goodL_sub (l l' : List FSEntry) (hsub : ∀ e ∈ l', e ∈ l) (h : goodL l = true) :
    goodL l' = true := by
  rw [goodL_iff] at h ⊢
  exact fun e he => h e (hsub e he)

theorem ls.runF_good_ok : ∀ (N : Nat) (f : Flags) (c : ls.Call) (fuel : Nat),
    ls.callB c ≤ N → ls.callB c ≤ fuel → ls.goodC c = true →
    (ls.runF f fuel c none).res = .ok ∧ (ls.runF f fuel c none).ctx = none := by
  intro N
  induction N using Nat.strong_induction_on with
  | _ N ih =>
    intro f c fuel hN hf hg
    have hpos := ls.callB_pos c
    obtain ⟨a, rfl⟩ : ∃ a, fuel = a + 1 := ⟨fuel - 1, by omega⟩
    cases c with
    | path p node? =>
      cases node? with
      | none => simp [ls.goodC] at hg
      | some node =>
        cases node with
        | file m =>
          obtain ⟨line, hline⟩ := ls.fmtEntry_isSome f p m (goodN_meta _ hg)
          simp only [ls.runF, ctxCheck, hline]
          exact ⟨trivial, trivial⟩
        | dir m cs =>
          have hcb : ls.callB (.path p (some (.dir m cs))) = entsSize cs + 2 := by
            simp [ls.callB, nodeSize]
            omega
          rw [hcb] at hN hf
          have hgl : goodL cs = true := by
            simp only [ls.goodC, goodN, Bool.and_eq_true] at hg
            exact hg.2
          have hvisinfo : ∀ e ∈ visibleEntries f cs, entryInfoOk e = true := by
            intro e he
            have := (goodL_iff cs).mp hgl e (List.mem_of_mem_filter he)
            exact this.1
          have hcrash : ls.sortCrash f (visibleEntries f cs) = false :=
            ls.sortCrash_eq_false f _ hvisinfo
          have hglSorted : goodL (ls.sortEntries f (visibleEntries f cs)) = true := by
            refine goodL_sub cs _ (fun e he => ?_) hgl
            have hperm := List.perm_insertionSort
              (fun a b => (ls.sortLess f a b).getD false = true) (visibleEntries f cs)
            exact List.mem_of_mem_filter (hperm.mem_iff.mp he)
          simp only [ls.runF, ctxCheck, ls.filterLoop_none, hcrash, Bool.false_eq_true, if_false]
          exact ih (entsSize (ls.sortEntries f (visibleEntries f cs)) + 1)
            (by rw [entsSize_sortEntries]
                have := entsSize_filter_le (fun e => f.allFiles || !hiddenName (entryName e)) cs
                simp only [visibleEntries]
                omega)
            f _ a (le_refl _)
            (by simp only [ls.callB]
                rw [entsSize_sortEntries]
                have := entsSize_filter_le (fun e => f.allFiles || !hiddenName (entryName e)) cs
                simp only [visibleEntries]
                omega)
            (by simp only [ls.goodC]; exact hglSorted)
    | loop p l i =>
      cases l with
      | nil =>
        simp only [ls.runF]
        exact ⟨trivial, trivial⟩
      | cons e rest =>
        rcases e with ⟨nm, ok, nd⟩
        have hcb : ls.callB (.loop p ((nm, ok, nd) :: rest) i) =
            nodeSize nd + entsSize rest + 2 := by
          simp [ls.callB, entsSize]
          omega
        rw [hcb] at hN hf
        have hnd := nodeSize_pos nd
        simp only [ls.goodC, goodL, Bool.and_eq_true] at hg
        obtain ⟨⟨hok, hgnd⟩, hgrest⟩ := hg
        subst hok
        obtain ⟨line, hline⟩ :=
          ls.fmtEntry_isSome f (pathJoin p nm) (entryMeta (nm, true, nd)) (goodN_meta _ hgnd)
        have hrest : (ls.runF f a (.loop p rest (i + 1)) none).res = .ok ∧
            (ls.runF f a (.loop p rest (i + 1)) none).ctx = none :=
          ih (entsSize rest + 1) (by omega) f _ a (by simp [ls.callB])
            (by simp [ls.callB]; omega) (by simp only [ls.goodC]; exact hgrest)
        have hchild : (ls.runF f a (.path (pathJoin p nm) (some nd)) none).res = .ok ∧
            (ls.runF f a (.path (pathJoin p nm) (some nd)) none).ctx = none :=
          ih (nodeSize nd + 1) (by omega) f _ a (by simp [ls.callB])
            (by simp [ls.callB]; omega) (by simp only [ls.goodC]; exact hgnd)
        simp only [ls.runF]
        cases hi : (i % 100 == 0) <;>
          simp only [hi, Bool.false_eq_true, if_false, if_true, ctxCheck] <;>
          simp only [entryInfoOk, entryName, entryNode, Bool.not_true, Bool.false_eq_true,
            if_false, hline] <;>
          cases hrec : (f.recursive && isDirN nd) <;>
          simp only [hrec, Bool.false_eq_true, if_false, if_true]
        · exact hrest
        · rw [hchild.1]
          dsimp only
          rw [hchild.2]
          exact hrest
        · exact hrest
        · rw [hchild.1]
          dsimp only
          rw [hchild.2]
          exact hrest

theorem ls.listPath_dir (f : Flags) (p : String) (m : FileMeta) (cs : List FSEntry)
    (hinfo : ∀ e ∈ visibleEntries f cs, entryInfoOk e = true) :
    ls.listPath f p (some (.dir m cs)) none =
      ls.runF f (1 + entsSize cs) (.loop p (ls.sortEntries f (visibleEntries f cs)) 0) none := by
  have hcrash : ls.sortCrash f (visibleEntries f cs) = false :=
    ls.sortCrash_eq_false f _ hinfo
  unfold ls.listPath
  have hcb : ls.callB (.path p (some (.dir m cs))) = (1 + entsSize cs) + 1 := by
    simp [ls.callB, nodeSize]
  rw [hcb]
  simp only [ls.runF, ctxCheck, ls.filterLoop_none, hcrash, Bool.false_eq_true, if_false]

theorem ls.loopShort (f : Flags) (p : String) (hlf : f.longFormat = false)
    (hrec : f.recursive = false) : ∀ (l : List FSEntry) (i fuel : Nat),
    (∀ e ∈ l, entryInfoOk e = true) → entsSize l + 1 ≤ fuel →
    (ls.runF f fuel (.loop p l i) none).out =
      l.map (fun e => pathBase (pathJoin p (entryName e))) := by
  intro l
  induction l with
  | nil =>
    intro i fuel _ hfuel
    obtain ⟨a, rfl⟩ : ∃ a, fuel = a + 1 := ⟨fuel - 1, by omega⟩
    simp only [ls.runF]
    rfl
  | cons e rest ih =>
    intro i fuel hinfo hfuel
    rcases e with ⟨nm, ok, nd⟩
    have hok : ok = true := hinfo (nm, ok, nd) (List.mem_cons_self _ _)
    subst hok
    have hnd := nodeSize_pos nd
    have hsz : entsSize ((nm, true, nd) :: rest) = 1 + nodeSize nd + entsSize rest := rfl
    obtain ⟨a, rfl⟩ : ∃ a, fuel = a + 1 := ⟨fuel - 1, by omega⟩
    have hrest := ih (i + 1) a (fun e' he' => hinfo e' (List.mem_cons_of_mem _ he'))
      (by rw [hsz] at hfuel; omega)
    have hline : ls.fmtEntry f (pathJoin p nm) (entryMeta (nm, true, nd)) =
        some (pathBase (pathJoin p nm)) := by
      unfold ls.fmtEntry
      rw [hlf]
      simp
    simp only [ls.runF]
    cases hi : (i % 100 == 0) <;>
      simp only [hi, Bool.false_eq_true, if_false, if_true, ctxCheck] <;>
      simp only [entryInfoOk, entryName, entryNode, Bool.not_true, Bool.false_eq_true,
        if_false, hline, hrec, Bool.false_and] <;>
      simp only [List.map_cons, entryName] <;>
      rw [hrest] <;> rfl

theorem splitSlash_ne_nil : ∀ l : List Char, splitSlash l ≠ [] := by
  intro l
  cases l with
  | nil => simp [splitSlash]
  | cons c cs =>
    simp only [splitSlash]
    rcases h : splitSlash cs with _ | ⟨p, ps⟩
    · simp
    · by_cases hc : c = '/' <;> simp [hc]

theorem splitSlash_no_slash : ∀ l : List Char, '/' ∉ l → splitSlash l = [l] := by
  intro l
  induction l with
  | nil => intro _; rfl
  | cons c cs ih =>
    intro h
    have hc : ¬(c = '/') := fun hh => h (by simp [hh])
    have hcs := ih (fun hm => h (List.mem_cons_of_mem _ hm))
    simp only [splitSlash, hcs]
    rw [if_neg hc]

theorem splitSlash_len2 : ∀ l : List Char, '/' ∈ l → 2 ≤ (splitSlash l).length := by
  intro l
  induction l with
  | nil => intro h; simp at h
  | cons c cs ih =>
    intro h
    simp only [splitSlash]
    rcases hs : splitSlash cs with _ | ⟨p, ps⟩
    · exact absurd hs (splitSlash_ne_nil cs)
    · by_cases hc : c = '/'
      · simp [hc]
      · have hcs : '/' ∈ cs := by
          rcases List.mem_cons.mp h with h' | h'
          · exact absurd h'.symm hc
          · exact h'
        have := ih hcs
        rw [hs] at this
        simp only [List.length_cons] at this
        simp [hc]
        omega

theorem splitSlash_getLast : ∀ (xs ys : List Char), '/' ∉ ys →
    (splitSlash (xs ++ '/' :: ys)).getLast? = some ys := by
  intro xs
  induction xs with
  | nil =>
    intro ys hns
    simp only [List.nil_append, splitSlash, splitSlash_no_slash ys hns]
    rfl
  | cons c xs ih =>
    intro ys hns
    have hmem : '/' ∈ xs ++ '/' :: ys := by simp
    have hlen := splitSlash_len2 _ hmem
    have hlast := ih ys hns
    simp only [List.cons_append, splitSlash]
    rcases hs : splitSlash (xs ++ '/' :: ys) with _ | ⟨p, ps⟩
    · exact absurd hs (splitSlash_ne_nil _)
    · rw [hs] at hlen hlast
      rcases ps with _ | ⟨q, ps'⟩
      · simp at hlen
      · dsimp only
        by_cases hc : c = '/'
        · rw [if_pos hc]
          rw [List.getLast?_cons_cons] at hlast ⊢
          exact hlast
        · rw [if_neg hc]
          rw [List.getLast?_cons_cons] at hlast ⊢
          exact hlast

theorem pathBase_pathJoin (p n : String) (hne : n ≠ "") (hns : '/' ∉ n.toList) :
    pathBase (pathJoin p n) = n := by
  unfold pathJoin
  by_cases hp : (p = "" || p = ".") = true
  · rw [if_pos hp]
    unfold pathBase
    rw [if_neg hne, splitSlash_no_slash n.toList hns]
    rfl
  · rw [if_neg hp]
    have h1 : (p ++ "/" ++ n).toList = p.toList ++ '/' :: n.toList := by
      have := String.data_append (p ++ "/") n
      have h2 := String.data_append p "/"
      show (p ++ "/" ++ n).data = p.data ++ '/' :: n.data
      rw [this, h2]
      simp
    have hne2 : p ++ "/" ++ n ≠ "" := by
      intro h0
      have := congrArg String.toList h0
      rw [h1] at this
      simp at this
    unfold pathBase
    rw [if_neg hne2, h1]
    have := splitSlash_getLast p.toList n.toList hns
    rw [List.getLastD_eq_getLast?, this]
    rfl

/-- C6: with recursion off and the short (bare-name) format, the set of names
a directory listing emits equals the set of the directory's immediate
children's names with names beginning with `.` removed when `allFiles` is
false, and the full set of children's names when `allFiles` is true
(children's metadata retrievable; names nonempty and slash-free, as real
directory entries are). -/
theorem c6_visibility_filter :
    ∀ (f : Flags) (p : String) (m : FileMeta) (cs : List FSEntry),
      f.recursive = false → f.longFormat = false →
      (∀ e ∈ cs, entryInfoOk e = true) →
      (∀ e ∈ cs, entryName e ≠ "" ∧ '/' ∉ (entryName e).toList) →
      (ls.listPath f p (some (.dir m cs)) none).out.toFinset =
        (if f.allFiles then cs.map entryName
         else (cs.map entryName).filter (fun nm => !hiddenName nm)).toFinset := by
  intro f p m cs hrec hlf hinfo hnames
  have hvisinfo : ∀ e ∈ visibleEntries f cs, entryInfoOk e = true :=
    fun e he => hinfo e (List.mem_of_mem_filter he)
  rw [ls.listPath_dir f p m cs hvisinfo]
  have hperm : (ls.sortEntries f (visibleEntries f cs)).Perm (visibleEntries f cs) :=
    List.perm_insertionSort _ _
  have hsortinfo : ∀ e ∈ ls.sortEntries f (visibleEntries f cs), entryInfoOk e = true :=
    fun e he => hvisinfo e (hperm.mem_iff.mp he)
  have hfuel : entsSize (ls.sortEntries f (visibleEntries f cs)) + 1 ≤ 1 + entsSize cs := by
    rw [entsSize_sortEntries]
    have := entsSize_filter_le (fun e => f.allFiles || !hiddenName (entryName e)) cs
    simp only [visibleEntries]
    omega
  rw [ls.loopShort f p hlf hrec _ 0 (1 + entsSize cs) hsortinfo hfuel]
  have hmapeq : (ls.sortEntries f (visibleEntries f cs)).map
      (fun e => pathBase (pathJoin p (entryName e))) =
      (ls.sortEntries f (visibleEntries f cs)).map entryName := by
    apply List.map_congr_left
    intro e he
    have hn := hnames e (List.mem_of_mem_filter (hperm.mem_iff.mp he))
    exact pathBase_pathJoin p (entryName e) hn.1 hn.2
  rw [hmapeq]
  rw [List.toFinset_eq_of_perm _ _ (hperm.map entryName)]
  cases hA : f.allFiles
  · rw [if_neg (by simp)]
    have hvis : visibleEntries f cs = cs.filter (fun e => !hiddenName (entryName e)) := by
      unfold visibleEntries
      congr 1
      funext e
      rw [hA]
      simp
    rw [hvis, List.filter_map]
    rfl
  · rw [if_pos rfl]
    have hvis : visibleEntries f cs = cs := by
      unfold visibleEntries
      rw [List.filter_eq_self.mpr]
      intro e _
      rw [hA]
      simp
    rw [hvis]

/-- Witness for C6: a directory with children `.hidden`, `b`, `a` and default
flags emits exactly `{a, b}`. -/
theorem c6_witness :
    ((⟨false, false, false, false, false, .name⟩ : Flags).recursive = false) ∧
    (ls.listPath ⟨false, false, false, false, false, .name⟩ "d"
        (some (.dir ⟨0, 0, "d"⟩
          [(".hidden", true, .file ⟨1, 1, "m"⟩), ("b", true, .file ⟨2, 2, "m"⟩),
           ("a", true, .file ⟨3, 3, "m"⟩)])) none).out.toFinset =
      (([".hidden", "b", "a"].filter (fun nm => !hiddenName nm)) : List String).toFinset := by
  refine ⟨rfl, ?_⟩
  have h := c6_visibility_filter ⟨false, false, false, false, false, .name⟩ "d" ⟨0, 0, "d"⟩
    [(".hidden", true, .file ⟨1, 1, "m"⟩), ("b", true, .file ⟨2, 2, "m"⟩),
     ("a", true, .file ⟨3, 3, "m"⟩)] rfl rfl (by decide) (by decide)
  simpa using h

/-- C2 counterexample: part_000's recursive listing walks the tree with
`filepath.WalkDir` and emits one line per entry — here `d`, `a.txt`, `sub`,
`f.txt` — with no blank separator line and no `<path>:` header anywhere
(the output contains no `""` element at all), although the emitted child
entry `sub` is a directory.  The claim, quantified over every recursive
directory listing of the repository, therefore fails on this variant; the
blank-line/header behaviour is specific to src/ls.go (see
`c2_recursive_child_headers`). -/
theorem c2_counterexample :
    (command.listRecursive ⟨false, false, false, true, false, .name⟩ "d"
        (.dir ⟨0, 0, "d"⟩ [("sub", true, .dir ⟨0, 0, "d"⟩ [("f.txt", true, .file ⟨1, 1, "m"⟩)]),
          ("a.txt", true, .file ⟨2, 2, "m"⟩)])).out =
      ["d", "a.txt", "sub", "f.txt"] ∧
    "" ∉ (command.listRecursive ⟨false, false, false, true, false, .name⟩ "d"
        (.dir ⟨0, 0, "d"⟩ [("sub", true, .dir ⟨0, 0, "d"⟩ [("f.txt", true, .file ⟨1, 1, "m"⟩)]),
          ("a.txt", true, .file ⟨2, 2, "m"⟩)])).out := by
  constructor <;> decide

theorem ls.loopSegment (f : Flags) (p : String) (hrec : f.recursive = true) :
    ∀ (l : List FSEntry) (i fuel : Nat), goodL l = true → entsSize l + 1 ≤ fuel →
    ∀ e ∈ l, isDirN (entryNode e) = true →
    ∃ (line : String) (pre post : List String),
      ls.fmtEntry f (pathJoin p (entryName e)) (entryMeta e) = some line ∧
      (ls.runF f fuel (.loop p l i) none).out =
        pre ++ line :: "" :: (pathJoin p (entryName e) ++ ":") ::
          ((ls.listPath f (pathJoin p (entryName e)) (some (entryNode e)) none).out ++ post) := by
  intro l
  induction l with
  | nil =>
    intro i fuel _ _ e he
    simp at he
  | cons hd rest ih =>
    intro i fuel hgood hfuel e hmem hdir
    rcases hd with ⟨nm, ok, nd⟩
    simp only [goodL, Bool.and_eq_true] at hgood
    obtain ⟨⟨hok, hgnd⟩, hgrest⟩ := hgood
    subst hok
    have hnd := nodeSize_pos nd
    have hsz : entsSize ((nm, true, nd) :: rest) = 1 + nodeSize nd + entsSize rest := rfl
    obtain ⟨a, rfl⟩ : ∃ a, fuel = a + 1 := ⟨fuel - 1, by omega⟩
    rw [hsz] at hfuel
    obtain ⟨line0, hline0⟩ :=
      ls.fmtEntry_isSome f (pathJoin p nm) (entryMeta (nm, true, nd)) (goodN_meta _ hgnd)
    have hchildOk := ls.runF_good_ok (nodeSize nd + 1) f (.path (pathJoin p nm) (some nd)) a
      (by simp [ls.callB]) (by simp [ls.callB]; omega) (by simp only [ls.goodC]; exact hgnd)
    have hchildEq : ls.runF f a (.path (pathJoin p nm) (some nd)) none =
        ls.listPath f (pathJoin p nm) (some nd) none := by
      unfold ls.listPath
      exact ls.runF_eq_callB f _ none a (by simp [ls.callB]; omega)
    rcases List.mem_cons.mp hmem with heq | hmem'
    · -- the target entry is the head of the loop
      subst heq
      have hdnd : isDirN nd = true := hdir
      have hco : (f.recursive && isDirN nd) = true := by rw [hrec, hdnd]; rfl
      have hout : (ls.runF f (a + 1) (.loop p ((nm, true, nd) :: rest) i) none).out =
          line0 :: "" :: (pathJoin p nm ++ ":") ::
            ((ls.runF f a (.path (pathJoin p nm) (some nd)) none).out ++
              (ls.runF f a (.loop p rest (i + 1)) none).out) := by
        simp only [ls.runF]
        cases hi : (i % 100 == 0) <;>
          simp only [hi, Bool.false_eq_true, if_false, if_true, ctxCheck] <;>
          simp only [entryInfoOk, entryName, entryNode, Bool.not_true, Bool.false_eq_true,
            if_false, hline0, hco, if_true] <;>
          rw [hchildOk.1] <;> dsimp only <;> rw [hchildOk.2]
      refine ⟨line0, [], (ls.runF f a (.loop p rest (i + 1)) none).out, hline0, ?_⟩
      rw [hout, hchildEq]
      simp [entryName, entryNode]
    · -- the target entry lies further down the loop
      obtain ⟨line, pre, post, h1, h2⟩ := ih (i + 1) a hgrest (by omega) e hmem' hdir
      cases hdnd : isDirN nd
      · -- the head is a plain file: it contributes one line
        have hco : (f.recursive && isDirN nd) = false := by rw [hrec, hdnd]; rfl
        have hout : (ls.runF f (a + 1) (.loop p ((nm, true, nd) :: rest) i) none).out =
            line0 :: (ls.runF f a (.loop p rest (i + 1)) none).out := by
          simp only [ls.runF]
          cases hi : (i % 100 == 0) <;>
            simp only [hi, Bool.false_eq_true, if_false, if_true, ctxCheck] <;>
            simp only [entryInfoOk, entryName, entryNode, Bool.not_true, Bool.false_eq_true,
              if_false, hline0, hco, if_true]
        refine ⟨line, line0 :: pre, post, h1, ?_⟩
        rw [hout, h2]
        simp
      · -- the head is itself a directory: it contributes its line, a blank
        -- line, a header and its own recursive listing
        have hco : (f.recursive && isDirN nd) = true := by rw [hrec, hdnd]; rfl
        have hout : (ls.runF f (a + 1) (.loop p ((nm, true, nd) :: rest) i) none).out =
            line0 :: "" :: (pathJoin p nm ++ ":") ::
              ((ls.runF f a (.path (pathJoin p nm) (some nd)) none).out ++
                (ls.runF f a (.loop p rest (i + 1)) none).out) := by
          simp only [ls.runF]
          cases hi : (i % 100 == 0) <;>
            simp only [hi, Bool.false_eq_true, if_false, if_true, ctxCheck] <;>
            simp only [entryInfoOk, entryName, entryNode, Bool.not_true, Bool.false_eq_true,
              if_false, hline0, hco, if_true] <;>
            rw [hchildOk.1] <;> dsimp only <;> rw [hchildOk.2]
        refine ⟨line, line0 :: "" :: (pathJoin p nm ++ ":") ::
          ((ls.runF f a (.path (pathJoin p nm) (some nd)) none).out ++ pre), post, h1, ?_⟩
        rw [hout, h2]
        simp

/-- C2 (amended to the src/ls.go lister): with `Recursive` set, whenever an
entry of the sorted visible listing of a well-behaved directory is itself a
directory, the emitted output contains — immediately after that child's own
line — a blank separator line, a `<path>:` header holding the child's joined
path, and then the lines produced by listing that child directory.
The part_000 variant's recursive walk emits no such separator or header
lines (see the counterexample). -/
theorem c2_recursive_child_headers :
    ∀ (f : Flags) (p : String) (m : FileMeta) (cs : List FSEntry) (e : FSEntry),
      f.recursive = true → goodN (.dir m cs) = true →
      e ∈ ls.sortEntries f (visibleEntries f cs) → isDirN (entryNode e) = true →
      ∃ (line : String) (pre post : List String),
        ls.fmtEntry f (pathJoin p (entryName e)) (entryMeta e) = some line ∧
        (ls.listPath f p (some (.dir m cs)) none).out =
          pre ++ line :: "" :: (pathJoin p (entryName e) ++ ":") ::
            ((ls.listPath f (pathJoin p (entryName e)) (some (entryNode e)) none).out ++ post) := by
  intro f p m cs e hrec hgood hmem hdir
  have hgl : goodL cs = true := by
    simp only [goodN, Bool.and_eq_true] at hgood
    exact hgood.2
  have hvisinfo : ∀ e' ∈ visibleEntries f cs, entryInfoOk e' = true := fun e' he' =>
    ((goodL_iff cs).mp hgl e' (List.mem_of_mem_filter he')).1
  rw [ls.listPath_dir f p m cs hvisinfo]
  have hperm := List.perm_insertionSort
    (fun a b => (ls.sortLess f a b).getD false = true) (visibleEntries f cs)
  have hglSorted : goodL (ls.sortEntries f (visibleEntries f cs)) = true :=
    goodL_sub cs _ (fun e' he' => List.mem_of_mem_filter (hperm.mem_iff.mp he')) hgl
  refine ls.loopSegment f p hrec _ 0 (1 + entsSize cs) hglSorted ?_ e hmem hdir
  rw [entsSize_sortEntries]
  have := entsSize_filter_le (fun e => f.allFiles || !hiddenName (entryName e)) cs
  simp only [visibleEntries]
  omega

/-- Witness for C2: a parent directory `d` holding subdirectory `sub` (which
contains `f.txt`) and file `a.txt`, listed recursively. -/
theorem c2_witness :
    goodN (.dir ⟨0, 0, "d"⟩
      [("sub", true, .dir ⟨0, 0, "d"⟩ [("f.txt", true, .file ⟨1, 1, "m"⟩)]),
       ("a.txt", true, .file ⟨2, 2, "m"⟩)]) = true ∧
    ∃ (line : String) (pre post : List String),
      ls.fmtEntry ⟨false, false, false, true, false, .name⟩
        (pathJoin "d" (entryName ("sub", true,
          FSNode.dir ⟨0, 0, "d"⟩ [("f.txt", true, .file ⟨1, 1, "m"⟩)])))
        (entryMeta ("sub", true,
          FSNode.dir ⟨0, 0, "d"⟩ [("f.txt", true, .file ⟨1, 1, "m"⟩)])) = some line ∧
      (ls.listPath ⟨false, false, false, true, false, .name⟩ "d"
          (some (.dir ⟨0, 0, "d"⟩
            [("sub", true, .dir ⟨0, 0, "d"⟩ [("f.txt", true, .file ⟨1, 1, "m"⟩)]),
             ("a.txt", true, .file ⟨2, 2, "m"⟩)])) none).out =
        pre ++ line :: "" ::
          (pathJoin "d" (entryName ("sub", true,
            FSNode.dir ⟨0, 0, "d"⟩ [("f.txt", true, .file ⟨1, 1, "m"⟩)])) ++ ":") ::
          ((ls.listPath ⟨false, false, false, true, false, .name⟩
              (pathJoin "d" (entryName ("sub", true,
                FSNode.dir ⟨0, 0, "d"⟩ [("f.txt", true, .file ⟨1, 1, "m"⟩)])))
              (some (entryNode ("sub", true,
                FSNode.dir ⟨0, 0, "d"⟩ [("f.txt", true, .file ⟨1, 1, "m"⟩)]))) none).out ++ post) :=
  ⟨by decide,
    c2_recursive_child_headers ⟨false, false, false, true, false, .name⟩ "d" ⟨0, 0, "d"⟩
      [("sub", true, .dir ⟨0, 0, "d"⟩ [("f.txt", true, .file ⟨1, 1, "m"⟩)]),
       ("a.txt", true, .file ⟨2, 2, "m"⟩)]
      ("sub", true, .dir ⟨0, 0, "d"⟩ [("f.txt", true, .file ⟨1, 1, "m"⟩)])
      rfl (by decide)
      (by rw [show ls.sortEntries ⟨false, false, false, true, false, .name⟩
            (visibleEntries ⟨false, false, false, true, false, .name⟩
              [("sub", true, FSNode.dir ⟨0, 0, "d"⟩ [("f.txt", true, .file ⟨1, 1, "m"⟩)]),
               ("a.txt", true, FSNode.file ⟨2, 2, "m"⟩)]) =
            [("a.txt", true, FSNode.file ⟨2, 2, "m"⟩),
             ("sub", true, FSNode.dir ⟨0, 0, "d"⟩ [("f.txt", true, .file ⟨1, 1, "m"⟩)])] from rfl]
          exact List.mem_cons_of_mem _ (List.mem_cons_self _ _))
      rfl⟩
